import Mathlib

/-! Random number engines of `include/random.hpp` and dominance predicates of
`include/algorithm.hpp`

A shallow embedding of the two engine templates of `random.hpp`
(`linear_congruential_engine` and `mersenne_twister_engine`) and of the presets
`minstd_rand0`, `minstd_rand` and `mt19937`.

Machine integers are natural numbers; an operation that can leave the range of
its C++ type is followed by a reduction modulo `2 ^ width`.  Three widths occur:
the width of the result type `UINT` (`bits`), of `unsigned long` (`ulbits`) and of
`std::size_t` (`szbits`).  The array `MT[N]` is a list of words.  Operations whose
behaviour is undefined in C++ (division or remainder by zero, an array access
outside the array) make the embedded operation return `none`.  Shift counts are
used as written: a shift by the width of its type or more is not singled out.
-/

/-! ## Fixed-width arithmetic -/

/-- Conversion of a natural number to an unsigned type of width `w`. -/
def wrap (w x : Nat) : Nat := x % 2 ^ w

/-- Unsigned addition at width `w`. -/
def uadd (w a b : Nat) : Nat := wrap w (a + b)

/-- Unsigned subtraction at width `w` (operands below `2 ^ w`). -/
def usub (w a b : Nat) : Nat := wrap w (a + 2 ^ w - b)

/-- Unsigned multiplication at width `w`. -/
def umul (w a b : Nat) : Nat := wrap w (a * b)

/-- Left shift at width `w`. -/
def ushl (w a s : Nat) : Nat := wrap w (a <<< s)

/-- Bitwise complement at width `w` (operand below `2 ^ w`). -/
def unot (w a : Nat) : Nat := 2 ^ w - 1 - a

/-- Unsigned division; `none` when the divisor is zero. -/
def udiv (a b : Nat) : Option Nat := if b = 0 then none else some (a / b)

/-- Unsigned remainder; `none` when the divisor is zero. -/
def urem (a b : Nat) : Option Nat := if b = 0 then none else some (a % b)

/-! ## Successive calls -/

/-- The outcome of `n` successive calls of a call operator `step`: the values
returned, in order, and the state left by the last call. -/
def callsN {σ : Type} (step : σ → Option (Nat × σ)) : Nat → σ → Option (List Nat × σ)
  | 0, s => some ([], s)
  | n + 1, s => do
    let r ← step s
    let rest ← callsN step n r.2
    some (r.1 :: rest.1, rest.2)

/-! ## `linear_congruential_engine<UINT, A, C, M>` -/

/-- Template arguments of `linear_congruential_engine`, with the width of `UINT`. -/
structure LCGParams where
  bits : Nat
  multiplier : Nat
  increment : Nat
  modulus : Nat
deriving DecidableEq, Repr

namespace linear_congruential_engine

/-- The constant `default_seed = 1u`. -/
def default_seed : Nat := 1

/-- The member function `seed( value )`; the result is the new `_data`. -/
def seed (p : LCGParams) (value : Nat) : Option Nat := do
  let ci ← urem p.increment p.modulus
  let vm ← urem value p.modulus
  if ci = 0 ∧ vm = 0 then some default_seed else some vm

/-- The multiplication step of `operator()`: the first `if`/`else` block. -/
def mulStep (p : LCGParams) (data : Nat) : Option Nat :=
  if p.multiplier = 1 then
    urem data p.modulus
  else do
    let q ← udiv p.modulus p.multiplier
    let r ← urem p.modulus p.multiplier
    let dq ← urem data q
    let t1 := umul p.bits p.multiplier dq
    let dd ← udiv data q
    let t2 := umul p.bits r dd
    if t1 < t2 then
      some (usub p.bits (uadd p.bits p.modulus t1) t2)
    else
      some (usub p.bits t1 t2)

/-- The increment step of `operator()`: the block under `if ( increment != 0 )`. -/
def addStep (p : LCGParams) (data : Nat) : Nat :=
  if p.increment ≠ 0 then
    let d := usub p.bits p.modulus data
    if d > p.increment then
      uadd p.bits data p.increment
    else
      usub p.bits p.increment d
  else
    data

/-- The call operator `operator()`: the returned value and the new `_data`. -/
def next (p : LCGParams) (data : Nat) : Option (Nat × Nat) := do
  let d1 ← mulStep p data
  let d2 := addStep p d1
  some (d2, d2)

/-- The member function `discard( z )`: the loop `for ( ; z != 0; --z ) (*this)();`. -/
def discard (p : LCGParams) : Nat → Nat → Option Nat
  | 0, data => some data
  | z + 1, data => do
    let r ← next p data
    discard p z r.2

/-- The static member function `min()`. -/
def min (p : LCGParams) : Nat := if p.increment = 0 then 1 else 0

/-- The static member function `max()`. -/
def max (p : LCGParams) : Nat := usub p.bits p.modulus 1

end linear_congruential_engine

/-- The preset `minstd_rand0`, for a result type of `bits` bits. -/
def minstd_rand0 (bits : Nat) : LCGParams :=
  { bits := bits, multiplier := 16807, increment := 0, modulus := 2147483647 }

/-- The preset `minstd_rand`, for a result type of `bits` bits. -/
def minstd_rand (bits : Nat) : LCGParams :=
  { bits := bits, multiplier := 48271, increment := 0, modulus := 2147483647 }

/-- The preset `default_random_engine`. -/
def default_random_engine (bits : Nat) : LCGParams := minstd_rand0 bits

/-- The states of the two `minstd` presets other than the fixed point zero. -/
def minstdState (d : Nat) : Prop := 1 ≤ d ∧ d ≤ 2147483646

/-! ## `mersenne_twister_engine<UINT, W, N, M, R, A, U, D, S, B, T, C, L, F>` -/

/-- Template arguments of `mersenne_twister_engine`, with the widths of `UINT`,
`unsigned long` and `std::size_t`. -/
structure MTParams where
  bits : Nat
  ulbits : Nat
  szbits : Nat
  W : Nat
  N : Nat
  M : Nat
  R : Nat
  A : Nat
  U : Nat
  D : Nat
  S : Nat
  B : Nat
  T : Nat
  C : Nat
  L : Nat
  F : Nat
deriving DecidableEq, Repr

/-- The data members `index` and `MT[N]`. -/
structure MTState where
  index : Nat
  MT : List Nat
deriving DecidableEq, Repr

/-- The loop `for ( i = start; i < bound; ++i ) body`, entered with
`cnt = bound - start`; it stops at the first failing iteration. -/
def forLoop {σ : Type} (body : Nat → σ → Option σ) : Nat → Nat → σ → Option σ
  | 0, _, s => some s
  | cnt + 1, i, s => (body i s).bind (forLoop body cnt (i + 1))

/-- Array read `MT[i]`; `none` outside the array. -/
def readAt (mt : List Nat) (i : Nat) : Option Nat := mt[i]?

/-- Array write `MT[i] = v`; `none` outside the array. -/
def writeAt (mt : List Nat) (i v : Nat) : Option (List Nat) :=
  if i < mt.length then some (mt.set i v) else none

namespace mersenne_twister_engine

/-- The constant `default_seed = 5489u`. -/
def default_seed : Nat := 5489

/-- The constant `MASK = ~((~0ul-1ul) << (W-1))`, converted to `result_type`. -/
def MASK (p : MTParams) : Nat :=
  wrap p.bits
    (unot p.ulbits (ushl p.ulbits (usub p.ulbits (unot p.ulbits 0) 1) (usub p.szbits p.W 1)))

/-- The constant `UMASK = ( ~UINT() ) << R`. -/
def UMASK (p : MTParams) : Nat := ushl p.bits (unot p.bits 0) p.R

/-- The constant `LMASK = ~UMASK`. -/
def LMASK (p : MTParams) : Nat := unot p.bits (UMASK p)

/-- The value stored by one iteration of the loop of `seed`:
`( F * ( prev ^ ( prev >> ( W - 2 ) ) ) + i ) & MASK`, where the sum of a `UINT` and a
`std::size_t` is taken at the wider of the two types. -/
def seedWord (p : MTParams) (prev i : Nat) : Nat :=
  wrap p.bits
    (uadd (Nat.max p.bits p.szbits)
        (umul p.bits p.F (prev ^^^ (prev >>> usub p.szbits p.W 2))) i
      &&& MASK p)

/-- The body of the loop of `seed`: `MT[i] = seedWord MT[i-1] i`. -/
def seedAt (p : MTParams) (i : Nat) (mt : List Nat) : Option (List Nat) := do
  let prev ← readAt mt (usub p.szbits i 1)
  writeAt mt i (seedWord p prev i)

/-- The member function `seed( value )`. -/
def seed (p : MTParams) (st : MTState) (value : Nat) : Option MTState := do
  let mt0 ← writeAt st.MT 0 (value &&& MASK p)
  let mt1 ← forLoop (seedAt p) (p.N - 1) 1 mt0
  some { index := p.N, MT := mt1 }

/-- The value stored by one step of the regeneration, from the words read at the
three positions: `c ^ ( y >> 1 ) ^ ( ( y & 0x01 ) ? A : 0 )` with
`y = ( a & UMASK ) | ( b & LMASK )`. -/
def twistWord (p : MTParams) (a b c : Nat) : Nat :=
  let y := (a &&& UMASK p) ||| (b &&& LMASK p)
  c ^^^ (y >>> 1) ^^^ (if y &&& 1 ≠ 0 then p.A else 0)

/-- One step of the regeneration: `y` from `MT[i]` and `MT[j]`, then
`MT[i] = MT[k] ^ ...`. -/
def twistAt (p : MTParams) (mt : List Nat) (i j k : Nat) : Option (List Nat) := do
  let a ← readAt mt i
  let b ← readAt mt j
  let c ← readAt mt k
  writeAt mt i (twistWord p a b c)

/-- The block under `if ( index >= state_size )` of `operator()`: two loops, the
last position, and `index = 0`. -/
def regenerate (p : MTParams) (st : MTState) : Option MTState :=
  if st.index ≥ p.N then do
    let nm := usub p.szbits p.N p.M
    let n1 := usub p.szbits p.N 1
    let mt1 ← forLoop
      (fun i mt => twistAt p mt i (uadd p.szbits i 1) (uadd p.szbits i p.M)) (nm - 0) 0 st.MT
    let mt2 ← forLoop
      (fun i mt => twistAt p mt i (uadd p.szbits i 1)
        (uadd p.szbits i (usub p.szbits p.M p.N))) (n1 - nm) nm mt1
    let mt3 ← twistAt p mt2 n1 0 (usub p.szbits p.M 1)
    some { index := 0, MT := mt3 }
  else
    some st

/-- The four tempering assignments at the end of `operator()`. -/
def temper (p : MTParams) (y0 : Nat) : Nat :=
  let y1 := y0 ^^^ ((y0 >>> p.U) &&& p.D)
  let y2 := y1 ^^^ (ushl p.bits y1 p.S &&& p.B)
  let y3 := y2 ^^^ (ushl p.bits y2 p.T &&& p.C)
  y3 ^^^ (y3 >>> p.L)

/-- The call operator `operator()`: the returned value and the new state. -/
def next (p : MTParams) (st : MTState) : Option (Nat × MTState) := do
  let st1 ← regenerate p st
  let y ← readAt st1.MT st1.index
  some (temper p y, { index := uadd p.szbits st1.index 1, MT := st1.MT })

/-- The member function `discard( z )`: the loop `for ( ; z != 0; --z ) (*this)();`. -/
def discard (p : MTParams) : Nat → MTState → Option MTState
  | 0, st => some st
  | z + 1, st => do
    let r ← next p st
    discard p z r.2

/-- The static member function `min()`. -/
def min (_p : MTParams) : Nat := 0

/-- The static member function `max()`. -/
def max (p : MTParams) : Nat := MASK p

end mersenne_twister_engine

/-- The preset `mt19937`, for the given widths of `UINT`, `unsigned long` and
`std::size_t`. -/
def mt19937 (bits ulbits szbits : Nat) : MTParams :=
  { bits := bits, ulbits := ulbits, szbits := szbits,
    W := 32, N := 624, M := 397, R := 31,
    A := 0x9908b0df, U := 11,
    D := 0xffffffff, S := 7,
    B := 0x9d2c5680, T := 15,
    C := 0xefc60000, L := 18, F := 1812433253 }

/-- The word that `seed( value )` leaves at position `i`, by recursion on `i`. -/
def mersenne_twister_engine.seedNth (p : MTParams) (value : Nat) : Nat → Nat
  | 0 => value &&& mersenne_twister_engine.MASK p
  | i + 1 => mersenne_twister_engine.seedWord p (mersenne_twister_engine.seedNth p value i) (i + 1)

/-- Specification form of the seeding rule of `mt19937`, over unbounded integers:
`(1812433253 * (prev XOR (prev >> 30)) + i) mod 2^32`. -/
def mt19937_seedRule (prev i : Nat) : Nat :=
  (1812433253 * (prev ^^^ (prev >>> 30)) + i) % 2 ^ 32

/-- Specification form of the seeded array of `mt19937`: `value mod 2^32` at position 0,
the rule applied to the previous word at every later position. -/
def mt19937_seedRef (value : Nat) : Nat → Nat
  | 0 => value % 2 ^ 32
  | i + 1 => mt19937_seedRule (mt19937_seedRef value i) (i + 1)

/-- Specification form of one step of the regeneration, for the pass over
`i = 0, 1, ..., N-1`:
`y = (MT[i] & UMASK) | (MT[(i+1) mod N] & LMASK)` and
`MT[i] = MT[(i+Mshift) mod N] XOR (y >> 1) XOR (A if y is odd, else 0)`. -/
def mersenne_twister_engine.twistPassStep (p : MTParams) (mt : List Nat) (i : Nat) : List Nat :=
  let y := (mt.getD i 0 &&& mersenne_twister_engine.UMASK p)
    ||| (mt.getD ((i + 1) % p.N) 0 &&& mersenne_twister_engine.LMASK p)
  mt.set i (mt.getD ((i + p.M) % p.N) 0 ^^^ (y >>> 1) ^^^ (if y % 2 = 1 then p.A else 0))

/-- Specification form of the regeneration: one in-place pass over `i = 0, 1, ..., N-1`. -/
def mersenne_twister_engine.twistPass (p : MTParams) (mt : List Nat) : List Nat :=
  (List.range p.N).foldl (mersenne_twister_engine.twistPassStep p) mt

/-- Every word of the array is below `b`. -/
def wordsBelow (b : Nat) (mt : List Nat) : Prop := ∀ x ∈ mt, x < b

/-! ## Constructors and sequences of calls -/

/-- The constructor `linear_congruential_engine( value )`: its body is `seed( value )`. -/
def linear_congruential_engine.construct (p : LCGParams) (value : Nat) : Option Nat :=
  linear_congruential_engine.seed p value

/-- The constructor `mersenne_twister_engine( value )`: its body is `seed( value )`, run
on the members as they are before initialisation (`raw`). -/
def mersenne_twister_engine.construct (p : MTParams) (raw : MTState) (value : Nat) :
    Option MTState :=
  mersenne_twister_engine.seed p raw value

/-- A state-changing call on an engine: `operator()` or `discard( z )`. -/
inductive EngineOp where
  | call : EngineOp
  | skip (z : Nat) : EngineOp
deriving DecidableEq, Repr

/-- The state left by a sequence of calls, each of them `operator()` (`step`) or
`discard( z )` (`disc`); `none` when one of them fails. -/
def runOps {σ : Type} (step : σ → Option (Nat × σ)) (disc : Nat → σ → Option σ) :
    List EngineOp → σ → Option σ
  | [], s => some s
  | EngineOp.call :: ops, s => (step s).bind fun r => runOps step disc ops r.2
  | EngineOp.skip z :: ops, s => (disc z s).bind (runOps step disc ops)

/-! ## `operator()` of the linear congruential engine in exact integer arithmetic -/

/-- Specification form of the multiplication step: the same expressions over the natural
numbers, without reduction to the width of the result type. -/
def linear_congruential_engine.mulStepExact (p : LCGParams) (data : Nat) : Option Nat :=
  if p.multiplier = 1 then
    urem data p.modulus
  else do
    let q ← udiv p.modulus p.multiplier
    let r ← urem p.modulus p.multiplier
    let dq ← urem data q
    let t1 := p.multiplier * dq
    let dd ← udiv data q
    let t2 := r * dd
    if t1 < t2 then
      some (p.modulus + t1 - t2)
    else
      some (t1 - t2)

/-- Specification form of the increment step, over the natural numbers. -/
def linear_congruential_engine.addStepExact (p : LCGParams) (data : Nat) : Nat :=
  if p.increment ≠ 0 then
    let d := p.modulus - data
    if d > p.increment then
      data + p.increment
    else
      p.increment - d
  else
    data

/-- Specification form of `operator()`, over the natural numbers. -/
def linear_congruential_engine.nextExact (p : LCGParams) (data : Nat) : Option (Nat × Nat) := do
  let d1 ← linear_congruential_engine.mulStepExact p data
  let d2 := linear_congruential_engine.addStepExact p d1
  some (d2, d2)

/-! ## Dominance predicates of `include/algorithm.hpp` -/

/-- The function `weakly_dominates( first1, last1, first2, last2, p )`, the two ranges
given as lists. -/
def weakly_dominates_by {α : Type} (p : α → α → Bool) : List α → List α → Bool
  | x :: xs, y :: ys => if p y x then false else weakly_dominates_by p xs ys
  | _, _ => true

/-- The loop of `dominates( first1, last1, first2, last2, p )`, from the current value of
`result`. -/
def dominatesLoop {α : Type} (p : α → α → Bool) : Bool → List α → List α → Bool
  | result, x :: xs, y :: ys =>
    if p y x then false else dominatesLoop p (result || p x y) xs ys
  | result, _, _ => result

/-- The function `dominates( first1, last1, first2, last2, p )`. -/
def dominates_by {α : Type} (p : α → α → Bool) (a b : List α) : Bool :=
  dominatesLoop p false a b

/-- The function `weakly_dominates( first1, last1, first2, last2 )`, which compares with
`operator<` of the elements. -/
def weakly_dominates {α : Type} [LT α] [DecidableRel (fun x y : α => x < y)] :
    List α → List α → Bool
  | x :: xs, y :: ys => if y < x then false else weakly_dominates xs ys
  | _, _ => true

/-- The loop of `dominates( first1, last1, first2, last2 )`, from the current value of
`result`. -/
def dominatesLtLoop {α : Type} [LT α] [DecidableRel (fun x y : α => x < y)] :
    Bool → List α → List α → Bool
  | result, x :: xs, y :: ys =>
    if y < x then false else dominatesLtLoop (result || decide (x < y)) xs ys
  | result, _, _ => result

/-- The function `dominates( first1, last1, first2, last2 )`, which compares with
`operator<` of the elements. -/
def dominates {α : Type} [LT α] [DecidableRel (fun x y : α => x < y)] (a b : List α) : Bool :=
  dominatesLtLoop false a b

/-! ## Values computed by `operator()` of the linear congruential engine -/

/-- The values that the block under `if ( increment != 0 )` computes, in the order of
the source: `d`, then `_data + increment` or `increment - d`. -/
def linear_congruential_engine.addValues (p : LCGParams) (data : Nat) : List Nat :=
  if p.increment ≠ 0 then
    let d := usub p.bits p.modulus data
    if d > p.increment then
      [d, uadd p.bits data p.increment]
    else
      [d, usub p.bits p.increment d]
  else
    []

/-- The values that `operator()` computes, in the order of the source: `q`, `r`,
`_data % q`, `t1`, `_data / q`, `t2`, `modulus + t1` when `t1 < t2`, the new `_data`,
then the values of the increment block; `none` when a division or remainder by zero
occurs. -/
def linear_congruential_engine.nextValues (p : LCGParams) (data : Nat) : Option (List Nat) :=
  if p.multiplier = 1 then do
    let d1 ← urem data p.modulus
    some ([d1] ++ linear_congruential_engine.addValues p d1)
  else do
    let q ← udiv p.modulus p.multiplier
    let r ← urem p.modulus p.multiplier
    let dq ← urem data q
    let t1 := umul p.bits p.multiplier dq
    let dd ← udiv data q
    let t2 := umul p.bits r dd
    if t1 < t2 then
      let s := uadd p.bits p.modulus t1
      let d1 := usub p.bits s t2
      some ([q, r, dq, t1, dd, t2, s, d1] ++ linear_congruential_engine.addValues p d1)
    else
      let d1 := usub p.bits t1 t2
      some ([q, r, dq, t1, dd, t2, d1] ++ linear_congruential_engine.addValues p d1)

/-! ## Public constants of `mersenne_twister_engine` -/

/-- The constant `word_size = W`. -/
def mersenne_twister_engine.word_size (p : MTParams) : Nat := p.W

/-- The constant `state_size = N`. -/
def mersenne_twister_engine.state_size (p : MTParams) : Nat := p.N

/-- The constant `shift_size = M`. -/
def mersenne_twister_engine.shift_size (p : MTParams) : Nat := p.M

/-- The constant `mask_bits = R`. -/
def mersenne_twister_engine.mask_bits (p : MTParams) : Nat := p.R

/-- The constant `xor_mask = A`. -/
def mersenne_twister_engine.xor_mask (p : MTParams) : Nat := p.A

/-- The constant `tempering_u = U`. -/
def mersenne_twister_engine.tempering_u (p : MTParams) : Nat := p.U

/-- The constant `tempering_d = D`, declared `std::size_t` in the source. -/
def mersenne_twister_engine.tempering_d (p : MTParams) : Nat := wrap p.szbits p.D

/-- The constant `tempering_s = S`. -/
def mersenne_twister_engine.tempering_s (p : MTParams) : Nat := p.S

/-- The constant `tempering_b = B`. -/
def mersenne_twister_engine.tempering_b (p : MTParams) : Nat := p.B

/-- The constant `tempering_t = T`. -/
def mersenne_twister_engine.tempering_t (p : MTParams) : Nat := p.T

/-- The constant `tempering_c = C`. -/
def mersenne_twister_engine.tempering_c (p : MTParams) : Nat := p.C

/-- The constant `tempering_l = L`. -/
def mersenne_twister_engine.tempering_l (p : MTParams) : Nat := p.L

/-- The constant `initialization_multiplier`, which the source sets to `C`:
`static const result_type initialization_multiplier = C;`. -/
def mersenne_twister_engine.initialization_multiplier (p : MTParams) : Nat := p.C

/-! ## Lemmas on fixed-width arithmetic -/

theorem wrap_of_lt {w x : Nat} (h : x < 2 ^ w) : wrap w x = x := by
  unfold wrap; exact Nat.mod_eq_of_lt h

theorem wrap_lt (w x : Nat) : wrap w x < 2 ^ w := by
  unfold wrap; exact Nat.mod_lt _ (Nat.two_pow_pos w)

theorem usub_of_le {w a b : Nat} (hba : b ≤ a) (ha : a < 2 ^ w) : usub w a b = a - b := by
  unfold usub wrap
  have h1 : a + 2 ^ w - b = (a - b) + 2 ^ w := by omega
  rw [h1, Nat.add_mod_right]
  exact Nat.mod_eq_of_lt (by omega)

theorem usub_uadd_of_le {w a b c : Nat} (hc : c ≤ a + b) (hlt : a + b - c < 2 ^ w)
    (hc2 : c < 2 ^ w) : usub w (uadd w a b) c = a + b - c := by
  unfold usub uadd wrap
  generalize 2 ^ w = P at *
  by_cases h : a + b < P
  · rw [Nat.mod_eq_of_lt h]
    have e : a + b + P - c = (a + b - c) + P := by omega
    rw [e, Nat.add_mod_right]
    exact Nat.mod_eq_of_lt hlt
  · have h2 : (a + b) % P = a + b - P := by
      rw [Nat.mod_eq_sub_mod (by omega)]
      exact Nat.mod_eq_of_lt (by omega)
    have e : a + b - P + P - c = a + b - c := by omega
    rw [h2, e]
    exact Nat.mod_eq_of_lt hlt

/-- Schrage's decomposition, over the natural numbers. -/
theorem schrage (A M x : Nat) (hA : 0 < A) (hr : M % A ≤ M / A) (hx : x < M) :
    A * (x % (M / A)) < M ∧ M % A * (x / (M / A)) ≤ x ∧
    (if A * (x % (M / A)) < M % A * (x / (M / A))
      then M + A * (x % (M / A)) - M % A * (x / (M / A))
      else A * (x % (M / A)) - M % A * (x / (M / A))) = A * x % M := by
  have hM := Nat.div_add_mod M A
  have hq : 0 < M / A := by
    rcases Nat.eq_zero_or_pos (M / A) with h | h
    · rw [h] at hM hr; simp at hM; omega
    · exact h
  generalize M / A = q at *
  generalize M % A = r at *
  have hxd := Nat.div_add_mod x q
  have hb : x % q < q := Nat.mod_lt _ hq
  generalize x / q = a at *
  generalize x % q = b at *
  have ht1 : A * b < M := by
    have : A * b + A ≤ A * q := by
      calc A * b + A = A * (b + 1) := by ring
        _ ≤ A * q := Nat.mul_le_mul_left A hb
    omega
  have ht2 : r * a ≤ x := by
    have : r * a ≤ q * a := Nat.mul_le_mul_right a hr
    omega
  have key : A * x + r * a = M * a + A * b := by
    rw [← hxd, ← hM]; ring
  refine ⟨ht1, ht2, ?_⟩
  split
  · rename_i hlt
    have ha : 0 < a := by
      rcases Nat.eq_zero_or_pos a with h | h
      · rw [h] at hlt; simp at hlt
      · exact h
    obtain ⟨a', rfl⟩ : ∃ a', a = a' + 1 := ⟨a - 1, by omega⟩
    have e : A * x = (M + A * b - r * (a' + 1)) + M * a' := by
      have : M * (a' + 1) = M * a' + M := by ring
      omega
    rw [e, Nat.add_mul_mod_self_left]
    exact (Nat.mod_eq_of_lt (by omega)).symm
  · rename_i hge
    have e : A * x = (A * b - r * a) + M * a := by omega
    rw [e, Nat.add_mul_mod_self_left]
    exact (Nat.mod_eq_of_lt (by omega)).symm

namespace linear_congruential_engine

/-- The multiplication step computes `A * data mod M` whenever Schrage's condition
`M mod A <= M / A` holds and the modulus fits the result type. -/
theorem mulStep_eq (p : LCGParams) (data : Nat) (hA : 1 ≤ p.multiplier)
    (hr : p.modulus % p.multiplier ≤ p.modulus / p.multiplier)
    (hfit : p.modulus < 2 ^ p.bits) (hx : data < p.modulus) :
    mulStep p data = some (p.multiplier * data % p.modulus) := by
  unfold mulStep
  have hM : p.modulus ≠ 0 := by omega
  split
  · rename_i h1
    simp [urem, hM, h1]
  · obtain ⟨ht1, ht2, hres⟩ := schrage p.multiplier p.modulus data hA hr hx
    have hA0 : p.multiplier ≠ 0 := by omega
    have hq : p.modulus / p.multiplier ≠ 0 := by
      intro h
      rw [h] at hr
      have := Nat.div_add_mod p.modulus p.multiplier
      rw [h] at this
      simp at this hr
      omega
    have e1 : umul p.bits p.multiplier (data % (p.modulus / p.multiplier))
        = p.multiplier * (data % (p.modulus / p.multiplier)) := wrap_of_lt (by omega)
    have e2 : umul p.bits (p.modulus % p.multiplier) (data / (p.modulus / p.multiplier))
        = p.modulus % p.multiplier * (data / (p.modulus / p.multiplier)) :=
      wrap_of_lt (by omega)
    simp only [udiv, urem, hA0, hq, if_false, Option.bind_eq_bind, Option.some_bind, e1, e2]
    rw [← hres]
    split
    · rw [usub_uadd_of_le (by omega) (by omega) (by omega)]
    · rw [usub_of_le (by omega) (by omega)]

end linear_congruential_engine

/-! ## Lemmas on successive calls -/

/-- An invariant of the state that every call preserves, and a property that every
returned value then has, hold along `n` successive calls, none of which fails. -/
theorem callsN_inv {σ : Type} (step : σ → Option (Nat × σ)) (Inv : σ → Prop)
    (Out : Nat → Prop)
    (hstep : ∀ s, Inv s → ∃ v s', step s = some (v, s') ∧ Out v ∧ Inv s') :
    ∀ n s, Inv s → ∃ outs s', callsN step n s = some (outs, s') ∧ outs.length = n ∧
      (∀ v ∈ outs, Out v) ∧ Inv s' := by
  intro n
  induction n with
  | zero =>
    intro s hs
    exact ⟨[], s, rfl, rfl, by simp, hs⟩
  | succ n ih =>
    intro s hs
    obtain ⟨v, s1, h1, hv, hs1⟩ := hstep s hs
    obtain ⟨outs, s2, h2, hlen, hout, hs2⟩ := ih s1 hs1
    refine ⟨v :: outs, s2, ?_, by simp [hlen], ?_, hs2⟩
    · simp [callsN, h1, h2]
    · intro w hw
      rcases List.mem_cons.mp hw with rfl | hw
      · exact hv
      · exact hout w hw

/-- One more call after `n` calls, counted from the end. -/
theorem callsN_succ_last {σ : Type} (step : σ → Option (Nat × σ)) :
    ∀ n s, callsN step (n + 1) s =
      (callsN step n s).bind fun r =>
        (step r.2).bind fun r2 => some (r.1 ++ [r2.1], r2.2) := by
  intro n
  induction n with
  | zero =>
    intro s
    cases h : step s <;> simp [callsN, h]
  | succ n ih =>
    intro s
    rw [callsN]
    cases h : step s with
    | none => simp [callsN, h]
    | some r =>
      simp only [Option.bind_eq_bind, Option.some_bind]
      rw [ih r.2]
      cases h2 : callsN step n r.2 with
      | none => simp [callsN, h, h2]
      | some rest =>
        cases h3 : step rest.2 <;> simp [callsN, h, h2, h3]

namespace linear_congruential_engine

theorem mul_mod_ne_zero (A B M x : Nat) (h : A * B % M = 1) (hx : 0 < x) (hxM : x < M) :
    A * x % M ≠ 0 := by
  intro h0
  have h1 : (B * (A * x)) % M = 0 := by
    rw [Nat.mul_mod, h0]; simp
  have h2 : (B * (A * x)) % M = x := by
    have e : B * (A * x) = (A * B) * x := by ring
    rw [e, Nat.mul_mod, h, Nat.one_mul, Nat.mod_mod, Nat.mod_eq_of_lt hxM]
  omega

theorem two_pow_32_le {bits : Nat} (hb : 32 ≤ bits) : 4294967296 ≤ 2 ^ bits := by
  have := Nat.pow_le_pow_right (show 0 < 2 by decide) hb
  simpa using this

theorem next_minstd_rand0 (bits : Nat) (hb : 32 ≤ bits) (data : Nat) (hd : data < 2147483647) :
    next (minstd_rand0 bits) data
      = some (16807 * data % 2147483647, 16807 * data % 2147483647) := by
  have h2 := two_pow_32_le hb
  have h := mulStep_eq (minstd_rand0 bits) data (by simp only [minstd_rand0]; decide)
    (by simp only [minstd_rand0]; decide) (by simp only [minstd_rand0]; omega) hd
  simp only [minstd_rand0] at h
  simp [next, addStep, minstd_rand0, h]

theorem next_minstd_rand (bits : Nat) (hb : 32 ≤ bits) (data : Nat) (hd : data < 2147483647) :
    next (minstd_rand bits) data
      = some (48271 * data % 2147483647, 48271 * data % 2147483647) := by
  have h2 := two_pow_32_le hb
  have h := mulStep_eq (minstd_rand bits) data (by simp only [minstd_rand]; decide)
    (by simp only [minstd_rand]; decide) (by simp only [minstd_rand]; omega) hd
  simp only [minstd_rand] at h
  simp [next, addStep, minstd_rand, h]

/-- With a positive modulus `seed` does not fail, and takes the fallback branch
under the condition of its conditional expression. -/
theorem lcg_seed_eq (p : LCGParams) (value : Nat) (hM : 0 < p.modulus) :
    seed p value = some (if p.increment % p.modulus = 0 ∧ value % p.modulus = 0
      then default_seed else value % p.modulus) := by
  have h0 : p.modulus ≠ 0 := by omega
  unfold seed
  simp only [urem, h0, if_false, Option.bind_eq_bind, Option.some_bind]
  split <;> rfl

theorem seed_minstd (p : LCGParams) (hi : p.increment = 0) (hm : p.modulus = 2147483647)
    (value : Nat) : ∃ d, seed p value = some d ∧ minstdState d := by
  rw [lcg_seed_eq p value (by omega)]
  refine ⟨_, rfl, ?_⟩
  rw [hi, hm]
  unfold minstdState default_seed
  split
  · omega
  · rename_i h
    simp at h
    have := Nat.mod_lt value (show 0 < 2147483647 by decide)
    omega

theorem mul_mod_state (A B d : Nat) (h : A * B % 2147483647 = 1) (hd : minstdState d) :
    minstdState (A * d % 2147483647) := by
  unfold minstdState at *
  have h0 := mul_mod_ne_zero A B 2147483647 d h (by omega) (by omega)
  have h1 := Nat.mod_lt (A * d) (show 0 < 2147483647 by decide)
  generalize A * d % 2147483647 = r at h0 h1 ⊢
  omega

theorem next_minstd_inv (bits : Nat) (hb : 32 ≤ bits) (p : LCGParams)
    (hp : p = minstd_rand0 bits ∨ p = minstd_rand bits) (d : Nat) (hd : minstdState d) :
    ∃ v d', next p d = some (v, d') ∧ minstdState v ∧ minstdState d' := by
  have hlt : d < 2147483647 := by unfold minstdState at hd; omega
  rcases hp with rfl | rfl
  · have h := mul_mod_state 16807 1407677000 d (by norm_num) hd
    exact ⟨_, _, next_minstd_rand0 bits hb d hlt, h, h⟩
  · have h := mul_mod_state 48271 1899818559 d (by norm_num) hd
    exact ⟨_, _, next_minstd_rand bits hb d hlt, h, h⟩

theorem min_max_minstd (bits : Nat) (hb : 32 ≤ bits) (p : LCGParams)
    (hp : p = minstd_rand0 bits ∨ p = minstd_rand bits) :
    min p = 1 ∧ max p = 2147483646 := by
  have h2 := two_pow_32_le hb
  have e : usub bits 2147483647 1 = 2147483647 - 1 := usub_of_le (by decide) (by omega)
  rcases hp with rfl | rfl <;> simp [min, max, minstd_rand0, minstd_rand, e]

end linear_congruential_engine

/-- The loop of `discard` leaves the state of `n` successive calls. -/
theorem discard_eq_callsN {σ : Type} (step : σ → Option (Nat × σ))
    (disc : Nat → σ → Option σ) (h0 : ∀ s, disc 0 s = some s)
    (hs : ∀ z s, disc (z + 1) s = (step s).bind fun r => disc z r.2) :
    ∀ n s, disc n s = (callsN step n s).map Prod.snd := by
  intro n
  induction n with
  | zero => intro s; simp [h0, callsN]
  | succ n ih =>
    intro s
    rw [hs, callsN]
    cases h : step s with
    | none => simp
    | some r =>
      simp only [Option.bind_eq_bind, Option.some_bind]
      rw [ih r.2]
      cases h2 : callsN step n r.2 <;> simp

/-- The loop of `discard` followed by one call gives the value and the state of the last
of `n + 1` successive calls. -/
theorem discard_then_call {σ : Type} (step : σ → Option (Nat × σ))
    (disc : Nat → σ → Option σ) (h0 : ∀ s, disc 0 s = some s)
    (hs : ∀ z s, disc (z + 1) s = (step s).bind fun r => disc z r.2) (n : Nat) (s : σ) :
    (disc n s).bind step
      = (callsN step (n + 1) s).bind fun r => r.1.getLast?.map fun v => (v, r.2) := by
  rw [discard_eq_callsN step disc h0 hs n s, callsN_succ_last]
  cases h : callsN step n s with
  | none => simp
  | some r =>
    cases h2 : step r.2 <;> simp [h2]

/-- Three successive calls, from the outcome of each. -/
theorem callsN_three {σ : Type} (step : σ → Option (Nat × σ)) {s0 s1 s2 s3 : σ}
    {v1 v2 v3 : Nat} (h1 : step s0 = some (v1, s1)) (h2 : step s1 = some (v2, s2))
    (h3 : step s2 = some (v3, s3)) : callsN step 3 s0 = some ([v1, v2, v3], s3) := by
  simp [callsN, h1, h2, h3]

namespace linear_congruential_engine

/-- C1: for `minstd_rand0` (A = 16807) and `minstd_rand` (A = 48271), both with C = 0 and
M = 2147483647, and every state `data < M`, the call operator does not fail, sets the
state to `(A * data + C) mod M` computed over the natural numbers, and returns that new
state; this holds for every result type of at least 32 bits. -/
theorem C1_next_minstd (bits : Nat) (hb : 32 ≤ bits) (p : LCGParams)
    (hp : p = minstd_rand0 bits ∨ p = minstd_rand bits) (data : Nat)
    (hd : data < p.modulus) :
    p.increment = 0 ∧ p.modulus = 2147483647 ∧
    next p data = some ((p.multiplier * data + p.increment) % p.modulus,
      (p.multiplier * data + p.increment) % p.modulus) := by
  rcases hp with rfl | rfl
  · exact ⟨rfl, rfl, next_minstd_rand0 bits hb data hd⟩
  · exact ⟨rfl, rfl, next_minstd_rand bits hb data hd⟩

theorem C1_next_minstd_witness :
    (32 ≤ 32) ∧ (minstd_rand 32 = minstd_rand0 32 ∨ minstd_rand 32 = minstd_rand 32) ∧
    (2147483646 < (minstd_rand 32).modulus) ∧
    next (minstd_rand 32) 2147483646 = some (2147435376, 2147435376) :=
  ⟨by decide, Or.inr rfl, by decide,
    (C1_next_minstd 32 (by decide) (minstd_rand 32) (Or.inr rfl) 2147483646 (by decide)).2.2⟩

/-- C2: a `minstd_rand0` engine seeded with 1 returns 16807, then 282475249, then
1622650073 from its first three calls, for every result type of at least 32 bits. -/
theorem C2_minstd_rand0_reference (bits : Nat) (hb : 32 ≤ bits) :
    (seed (minstd_rand0 bits) 1).bind (callsN (next (minstd_rand0 bits)) 3)
      = some ([16807, 282475249, 1622650073], 1622650073) := by
  have hs : seed (minstd_rand0 bits) 1 = some 1 := by
    rw [lcg_seed_eq _ _ (by simp only [minstd_rand0]; decide)]
    simp only [minstd_rand0]
    simp [default_seed]
  have h1 := next_minstd_rand0 bits hb 1 (by decide)
  have h2 := next_minstd_rand0 bits hb 16807 (by decide)
  have h3 := next_minstd_rand0 bits hb 282475249 (by decide)
  norm_num at h1 h2 h3
  rw [hs, Option.some_bind]
  exact callsN_three _ h1 h2 h3

theorem C2_minstd_rand0_reference_witness :
    (32 ≤ 32) ∧ (seed (minstd_rand0 32) 1).bind (callsN (next (minstd_rand0 32)) 3)
      = some ([16807, 282475249, 1622650073], 1622650073) :=
  ⟨by decide, C2_minstd_rand0_reference 32 (by decide)⟩

/-- C4: for every parameter set with M > 0 and every value, `seed(value)` does not fail
and sets `data` to 1 (the default seed) when `C mod M == 0` and `value mod M == 0`, and
to `value mod M` in every other case. -/
theorem C4_seed (p : LCGParams) (value : Nat) (hM : 0 < p.modulus) :
    ∃ d, seed p value = some d ∧
      ((p.increment % p.modulus = 0 ∧ value % p.modulus = 0) → d = 1) ∧
      (¬ (p.increment % p.modulus = 0 ∧ value % p.modulus = 0) → d = value % p.modulus) := by
  refine ⟨_, lcg_seed_eq p value hM, ?_, ?_⟩
  · intro h; rw [if_pos h]; rfl
  · intro h; rw [if_neg h]

theorem C4_seed_witness :
    (0 < (minstd_rand0 32).modulus) ∧ ∃ d, seed (minstd_rand0 32) 4294967294 = some d ∧
      (((minstd_rand0 32).increment % (minstd_rand0 32).modulus = 0 ∧
          4294967294 % (minstd_rand0 32).modulus = 0) → d = 1) ∧
      (¬ ((minstd_rand0 32).increment % (minstd_rand0 32).modulus = 0 ∧
          4294967294 % (minstd_rand0 32).modulus = 0) →
        d = 4294967294 % (minstd_rand0 32).modulus) :=
  ⟨by decide, C4_seed (minstd_rand0 32) 4294967294 (by decide)⟩

/-- C8: for `minstd_rand0` and `minstd_rand`, every seed value and every `k`, the `k`
calls after `seed(value)` all succeed and every value they return lies between `min()`
and `max()` as the engine reports them. -/
theorem C8_minstd_bounds (bits : Nat) (hb : 32 ≤ bits) (p : LCGParams)
    (hp : p = minstd_rand0 bits ∨ p = minstd_rand bits) (value k : Nat) :
    ∃ outs d, (seed p value).bind (callsN (next p) k) = some (outs, d) ∧
      outs.length = k ∧ ∀ v ∈ outs, min p ≤ v ∧ v ≤ max p := by
  have hpi : p.increment = 0 ∧ p.modulus = 2147483647 := by
    rcases hp with rfl | rfl <;> exact ⟨rfl, rfl⟩
  obtain ⟨d0, hseed, hd0⟩ := seed_minstd p hpi.1 hpi.2 value
  obtain ⟨outs, d, hc, hlen, hout, -⟩ :=
    callsN_inv (next p) minstdState minstdState (next_minstd_inv bits hb p hp) k d0 hd0
  obtain ⟨hmin, hmax⟩ := min_max_minstd bits hb p hp
  refine ⟨outs, d, by simp [hseed, hc], hlen, ?_⟩
  intro v hv
  have := hout v hv
  unfold minstdState at this
  omega

theorem C8_minstd_bounds_witness :
    (32 ≤ 64) ∧ (minstd_rand0 64 = minstd_rand0 64 ∨ minstd_rand0 64 = minstd_rand 64) ∧
    ∃ outs d, (seed (minstd_rand0 64) 0).bind (callsN (next (minstd_rand0 64)) 5)
        = some (outs, d) ∧
      outs.length = 5 ∧ ∀ v ∈ outs, min (minstd_rand0 64) ≤ v ∧ v ≤ max (minstd_rand0 64) :=
  ⟨by decide, Or.inl rfl, C8_minstd_bounds 64 (by decide) (minstd_rand0 64) (Or.inl rfl) 0 5⟩

end linear_congruential_engine

/-! ## Lemmas on arrays and loops -/

theorem uadd_of_lt {w a b : Nat} (h : a + b < 2 ^ w) : uadd w a b = a + b := wrap_of_lt h

theorem getD_set_self {l : List Nat} {i : Nat} (v d : Nat) (h : i < l.length) :
    (l.set i v).getD i d = v := by
  simp [List.getD_eq_getElem?_getD, List.getElem?_set, h]

theorem getD_set_ne {l : List Nat} {i j : Nat} (v d : Nat) (h : i ≠ j) :
    (l.set i v).getD j d = l.getD j d := by
  simp [List.getD_eq_getElem?_getD, List.getElem?_set_ne h]

theorem readAt_of_lt {mt : List Nat} {i : Nat} (h : i < mt.length) :
    readAt mt i = some (mt.getD i 0) := by
  simp [readAt, List.getD_eq_getElem?_getD, List.getElem?_eq_getElem h]

theorem writeAt_of_lt {mt : List Nat} {i : Nat} (v : Nat) (h : i < mt.length) :
    writeAt mt i v = some (mt.set i v) := by
  simp [writeAt, h]

/-- Hoare rule for `forLoop`: an invariant that every iteration in range preserves,
without failing, holds at the end of the loop, which does not fail. -/
theorem forLoop_inv {σ : Type} (body : Nat → σ → Option σ) (P : Nat → σ → Prop) :
    ∀ cnt i s, P i s →
      (∀ j s, i ≤ j → j < i + cnt → P j s → ∃ s', body j s = some s' ∧ P (j + 1) s') →
      ∃ s', forLoop body cnt i s = some s' ∧ P (i + cnt) s' := by
  intro cnt
  induction cnt with
  | zero =>
    intro i s hP _
    exact ⟨s, rfl, hP⟩
  | succ cnt ih =>
    intro i s hP hstep
    obtain ⟨s1, h1, hP1⟩ := hstep i s (Nat.le_refl i) (by omega) hP
    obtain ⟨s2, h2, hP2⟩ := ih (i + 1) s1 hP1
      (fun j s hj hj2 hPj => hstep j s (by omega) (by omega) hPj)
    refine ⟨s2, ?_, ?_⟩
    · simp [forLoop, h1, h2]
    · have e : i + (cnt + 1) = i + 1 + cnt := by omega
      rw [e]; exact hP2

theorem wordsBelow_set {b : Nat} {mt : List Nat} (i : Nat) {v : Nat} (h : wordsBelow b mt)
    (hv : v < b) : wordsBelow b (mt.set i v) := by
  intro x hx
  rcases List.mem_or_eq_of_mem_set hx with h1 | h1
  · exact h x h1
  · rw [h1]; exact hv

theorem wordsBelow_getD {b : Nat} {mt : List Nat} (i : Nat) (h : wordsBelow b mt)
    (hb : 0 < b) : mt.getD i 0 < b := by
  by_cases hi : i < mt.length
  · rw [List.getD_eq_getElem _ _ hi]
    exact h _ (List.getElem_mem hi)
  · rw [List.getD_eq_default _ _ (by omega)]
    exact hb

namespace mersenne_twister_engine

/-- The body of the loop of `seed` at a position inside the array. -/
theorem seedAt_eq (p : MTParams) (i : Nat) (mt : List Nat) (h1 : 1 ≤ i) (hi : i < mt.length)
    (hsz : mt.length < 2 ^ p.szbits) :
    seedAt p i mt = some (mt.set i (seedWord p (mt.getD (i - 1) 0) i)) := by
  unfold seedAt
  rw [usub_of_le h1 (by omega), readAt_of_lt (by omega)]
  simp only [Option.bind_eq_bind, Option.some_bind]
  exact writeAt_of_lt _ hi

/-- Closed form of `seed`: it does not fail on an array of `N >= 1` words and leaves
`seedNth p value i` at every position `i` and `index = N`. -/
theorem mt_seed_eq (p : MTParams) (st : MTState) (value : Nat) (hlen : st.MT.length = p.N)
    (hN0 : 0 < p.N) (hsz : p.N < 2 ^ p.szbits) :
    ∃ mt, seed p st value = some { index := p.N, MT := mt } ∧ mt.length = p.N ∧
      ∀ k, k < p.N → mt.getD k 0 = seedNth p value k := by
  have hw : writeAt st.MT 0 (value &&& MASK p) = some (st.MT.set 0 (value &&& MASK p)) :=
    writeAt_of_lt _ (by omega)
  obtain ⟨mt, hloop, hlen2, hall⟩ := forLoop_inv (seedAt p)
    (fun j mt => mt.length = p.N ∧ ∀ k, k < j → mt.getD k 0 = seedNth p value k)
    (p.N - 1) 1 (st.MT.set 0 (value &&& MASK p))
    ⟨by simp [hlen], by
      intro k hk
      have : k = 0 := by omega
      subst this
      rw [getD_set_self _ _ (by omega)]
      rfl⟩
    (by
      intro j mt hj hj2 ⟨hl, hprev⟩
      refine ⟨_, seedAt_eq p j mt hj (by omega) (by omega), by simp [hl], ?_⟩
      intro k hk
      by_cases hkj : k = j
      · subst hkj
        rw [getD_set_self _ _ (by omega), hprev (k - 1) (by omega)]
        obtain ⟨k', rfl⟩ : ∃ k', k = k' + 1 := ⟨k - 1, by omega⟩
        rfl
      · rw [getD_set_ne _ _ (by omega)]
        exact hprev k (by omega))
  refine ⟨mt, ?_, hlen2, ?_⟩
  · unfold seed
    rw [hw]
    simp only [Option.bind_eq_bind, Option.some_bind]
    rw [hloop]
    rfl
  · intro k hk
    exact hall k (by omega)

end mersenne_twister_engine

theorem mod_sub_of_le {x n : Nat} (h1 : n ≤ x) (h2 : x < n + n) : x % n = x - n := by
  rw [Nat.mod_eq_sub_mod h1]
  exact Nat.mod_eq_of_lt (by omega)

theorem uadd_usub_wrap {w j m n : Nat} (hmn : m < n) (hn : n < 2 ^ w) (hj : n ≤ j + m)
    (hjn : j < n) : uadd w j (usub w m n) = j + m - n := by
  have e1 : usub w m n = m + 2 ^ w - n := wrap_of_lt (by omega)
  rw [e1]
  unfold uadd wrap
  have e2 : j + (m + 2 ^ w - n) = (j + m - n) + 2 ^ w := by omega
  rw [e2, Nat.add_mod_right]
  exact Nat.mod_eq_of_lt (by omega)

namespace mersenne_twister_engine

theorem twistWord_eq (p : MTParams) (a b c : Nat) :
    twistWord p a b c =
      c ^^^ (((a &&& UMASK p) ||| (b &&& LMASK p)) >>> 1)
        ^^^ (if ((a &&& UMASK p) ||| (b &&& LMASK p)) % 2 = 1 then p.A else 0) := by
  unfold twistWord
  simp only [Nat.and_one_is_mod]
  have h := Nat.mod_two_eq_zero_or_one ((a &&& UMASK p) ||| (b &&& LMASK p))
  rcases h with h | h <;> simp [h]

theorem twistPassStep_eq (p : MTParams) (mt : List Nat) (i : Nat) :
    twistPassStep p mt i = mt.set i
      (twistWord p (mt.getD i 0) (mt.getD ((i + 1) % p.N) 0) (mt.getD ((i + p.M) % p.N) 0)) := by
  rw [twistWord_eq]
  rfl

theorem twistPassStep_length (p : MTParams) (mt : List Nat) (i : Nat) :
    (twistPassStep p mt i).length = mt.length := by
  rw [twistPassStep_eq, List.length_set]

/-- One step of the regeneration, at in-range positions, is one step of the pass. -/
theorem twistAt_eq (p : MTParams) (mt : List Nat) (i j k : Nat) (hlen : mt.length = p.N)
    (hi : i < p.N) (hj : j = (i + 1) % p.N) (hk : k = (i + p.M) % p.N) :
    twistAt p mt i j k = some (twistPassStep p mt i) := by
  have hN : 0 < p.N := by omega
  have hj2 : j < mt.length := by rw [hj, hlen]; exact Nat.mod_lt _ hN
  have hk2 : k < mt.length := by rw [hk, hlen]; exact Nat.mod_lt _ hN
  unfold twistAt
  rw [readAt_of_lt (by omega), readAt_of_lt hj2, readAt_of_lt hk2]
  simp only [Option.bind_eq_bind, Option.some_bind]
  rw [writeAt_of_lt _ (by omega), twistPassStep_eq, hj, hk]

theorem foldl_range_succ (p : MTParams) (mt : List Nat) (j : Nat) :
    (List.range (j + 1)).foldl (twistPassStep p) mt
      = twistPassStep p ((List.range j).foldl (twistPassStep p) mt) j := by
  rw [List.range_succ, List.foldl_append]
  rfl

theorem foldl_pass_length (p : MTParams) (mt : List Nat) (j : Nat) :
    ((List.range j).foldl (twistPassStep p) mt).length = mt.length := by
  induction j with
  | zero => rfl
  | succ j ih => rw [foldl_range_succ, twistPassStep_length, ih]

theorem twistPass_length (p : MTParams) (mt : List Nat) :
    (twistPass p mt).length = mt.length := foldl_pass_length p mt p.N

/-- The regeneration block of `operator()`, written as two loops and a last position,
is the one-pass regeneration. -/
theorem regenerate_eq (p : MTParams) (st : MTState) (h0 : 0 < p.M) (hM : p.M < p.N)
    (hsz : p.N < 2 ^ p.szbits) (hlen : st.MT.length = p.N) (hidx : p.N ≤ st.index) :
    regenerate p st = some { index := 0, MT := twistPass p st.MT } := by
  have enm : usub p.szbits p.N p.M = p.N - p.M := usub_of_le (by omega) hsz
  have en1 : usub p.szbits p.N 1 = p.N - 1 := usub_of_le (by omega) hsz
  have em1 : usub p.szbits p.M 1 = p.M - 1 := usub_of_le (by omega) (by omega)
  obtain ⟨mt1, hl1, hP1, hlen1⟩ := forLoop_inv
    (fun i mt => twistAt p mt i (uadd p.szbits i 1) (uadd p.szbits i p.M))
    (fun j mt => mt = (List.range j).foldl (twistPassStep p) st.MT ∧ mt.length = p.N)
    (p.N - p.M - 0) 0 st.MT ⟨rfl, hlen⟩
    (by
      intro j mt _ hj ⟨hmt, hl⟩
      refine ⟨twistPassStep p mt j, ?_, ?_, ?_⟩
      · refine twistAt_eq p mt j _ _ hl (by omega) ?_ ?_
        · rw [uadd_of_lt (by omega), Nat.mod_eq_of_lt (by omega)]
        · rw [uadd_of_lt (by omega), Nat.mod_eq_of_lt (by omega)]
      · rw [foldl_range_succ, ← hmt]
      · rw [twistPassStep_length, hl])
  obtain ⟨mt2, hl2, hP2, hlen2⟩ := forLoop_inv
    (fun i mt => twistAt p mt i (uadd p.szbits i 1)
      (uadd p.szbits i (usub p.szbits p.M p.N)))
    (fun j mt => mt = (List.range j).foldl (twistPassStep p) st.MT ∧ mt.length = p.N)
    (p.N - 1 - (p.N - p.M)) (p.N - p.M) mt1
    ⟨by simpa using hP1, hlen1⟩
    (by
      intro j mt hj1 hj ⟨hmt, hl⟩
      refine ⟨twistPassStep p mt j, ?_, ?_, ?_⟩
      · refine twistAt_eq p mt j _ _ hl (by omega) ?_ ?_
        · rw [uadd_of_lt (by omega), Nat.mod_eq_of_lt (by omega)]
        · rw [uadd_usub_wrap hM hsz (by omega) (by omega), mod_sub_of_le (by omega) (by omega)]
      · rw [foldl_range_succ, ← hmt]
      · rw [twistPassStep_length, hl])
  have e3 : p.N - p.M + (p.N - 1 - (p.N - p.M)) = p.N - 1 := by omega
  rw [e3] at hP2
  have hl3 : twistAt p mt2 (p.N - 1) 0 (p.M - 1) = some (twistPassStep p mt2 (p.N - 1)) := by
    refine twistAt_eq p mt2 (p.N - 1) _ _ hlen2 (by omega) ?_ ?_
    · have e : p.N - 1 + 1 = p.N := by omega
      rw [e, Nat.mod_self]
    · rw [mod_sub_of_le (by omega) (by omega)]
      omega
  have hfin : twistPassStep p mt2 (p.N - 1) = twistPass p st.MT := by
    unfold twistPass
    have e : p.N = (p.N - 1) + 1 := by omega
    rw [hP2]
    conv => rhs; rw [e, foldl_range_succ]
  unfold regenerate
  rw [if_pos hidx]
  simp only [enm, en1, em1]
  simp only [Nat.sub_zero] at hl1
  simp only [Nat.sub_zero, hl1, hl2, hl3, Option.bind_eq_bind, Option.some_bind, hfin]

theorem regenerate_of_lt (p : MTParams) (st : MTState) (hidx : st.index < p.N) :
    regenerate p st = some st := by
  unfold regenerate
  rw [if_neg (by omega)]

/-- A call on a fresh array reads the word under the cursor and tempers it. -/
theorem next_of_lt (p : MTParams) (st : MTState) (hlen : st.MT.length = p.N)
    (hsz : p.N < 2 ^ p.szbits) (hidx : st.index < p.N) :
    next p st = some (temper p (st.MT.getD st.index 0),
      { index := st.index + 1, MT := st.MT }) := by
  unfold next
  rw [regenerate_of_lt p st hidx]
  simp only [Option.bind_eq_bind, Option.some_bind]
  rw [readAt_of_lt (by omega), uadd_of_lt (by omega)]
  rfl

/-- A call on a stale array regenerates it, then reads and tempers its first word. -/
theorem next_of_ge (p : MTParams) (st : MTState) (h0 : 0 < p.M) (hM : p.M < p.N)
    (hsz : p.N < 2 ^ p.szbits) (hlen : st.MT.length = p.N) (hidx : p.N ≤ st.index) :
    next p st = some (temper p ((twistPass p st.MT).getD 0 0),
      { index := 1, MT := twistPass p st.MT }) := by
  unfold next
  rw [regenerate_eq p st h0 hM hsz hlen hidx]
  simp only [Option.bind_eq_bind, Option.some_bind]
  rw [readAt_of_lt (by rw [twistPass_length]; omega), uadd_of_lt (by omega)]
  rfl

end mersenne_twister_engine

theorem and_mask32 (x : Nat) : x &&& 4294967295 = x % 4294967296 :=
  Nat.and_pow_two_sub_one_eq_mod x 32

namespace mersenne_twister_engine

/-- The three widths of the embedding are each 32 or 64 bits. -/
theorem MASK_mt19937 (b u s : Nat) (hb : b = 32 ∨ b = 64) (hu : u = 32 ∨ u = 64)
    (hs : s = 32 ∨ s = 64) : MASK (mt19937 b u s) = 4294967295 := by
  rcases hb with rfl | rfl <;> rcases hu with rfl | rfl <;> rcases hs with rfl | rfl <;> decide

theorem seedWord_mt19937 (b u s : Nat) (hb : b = 32 ∨ b = 64) (hu : u = 32 ∨ u = 64)
    (hs : s = 32 ∨ s = 64) (prev i : Nat) :
    seedWord (mt19937 b u s) prev i
      = (1812433253 * (prev ^^^ (prev >>> 30)) + i) % 4294967296 := by
  have e : usub s 32 2 = 30 := by rcases hs with rfl | rfl <;> decide
  unfold seedWord
  rw [MASK_mt19937 b u s hb hu hs, and_mask32]
  simp only [mt19937]
  rw [e]
  generalize prev ^^^ (prev >>> 30) = x
  rcases hb with rfl | rfl <;> rcases hs with rfl | rfl <;>
    · simp only [wrap, uadd, umul]
      norm_num <;> omega

theorem seedNth_mt19937 (b u s : Nat) (hb : b = 32 ∨ b = 64) (hu : u = 32 ∨ u = 64)
    (hs : s = 32 ∨ s = 64) (value k : Nat) :
    seedNth (mt19937 b u s) value k = mt19937_seedRef value k := by
  induction k with
  | zero =>
    show value &&& MASK (mt19937 b u s) = value % 2 ^ 32
    rw [MASK_mt19937 b u s hb hu hs, and_mask32]
    norm_num
  | succ k ih =>
    show seedWord (mt19937 b u s) (seedNth (mt19937 b u s) value k) (k + 1) = _
    rw [seedWord_mt19937 b u s hb hu hs, ih]
    rfl

set_option maxRecDepth 100000 in
theorem seedRef_5489 : mt19937_seedRef 5489 0 = 5489 ∧ mt19937_seedRef 5489 1 = 1301868182 ∧
    mt19937_seedRef 5489 397 = 3183906156 := by
  decide

theorem first_word (b u s : Nat) (hb : b = 32 ∨ b = 64) (hu : u = 32 ∨ u = 64)
    (hs : s = 32 ∨ s = 64) :
    temper (mt19937 b u s) (twistWord (mt19937 b u s) 5489 1301868182 3183906156)
      = 3499211612 := by
  rcases hb with rfl | rfl <;> rcases hu with rfl | rfl <;> rcases hs with rfl | rfl <;> decide

theorem pass_getD_done (p : MTParams) (mt : List Nat) (k : Nat) :
    ∀ j, k < j → ((List.range j).foldl (twistPassStep p) mt).getD k 0
      = ((List.range (k + 1)).foldl (twistPassStep p) mt).getD k 0 := by
  intro j
  induction j with
  | zero => intro h; omega
  | succ j ih =>
    intro h
    by_cases hkj : k = j
    · rw [hkj]
    · rw [foldl_range_succ, twistPassStep_eq, getD_set_ne _ _ (by omega)]
      exact ih (by omega)

/-- The first word of the regenerated array. -/
theorem twistPass_getD_zero (p : MTParams) (mt : List Nat) (hlen : mt.length = p.N)
    (hN : 0 < p.N) :
    (twistPass p mt).getD 0 0
      = twistWord p (mt.getD 0 0) (mt.getD (1 % p.N) 0) (mt.getD (p.M % p.N) 0) := by
  unfold twistPass
  rw [pass_getD_done p mt 0 p.N hN, foldl_range_succ, twistPassStep_eq]
  simp only [List.range_zero, List.foldl_nil, Nat.zero_add]
  exact getD_set_self _ _ (by omega)

end mersenne_twister_engine

/-! ## Bounds on the words of the Mersenne Twister -/

theorem shiftRight_lt_two_pow {x w : Nat} (s : Nat) (h : x < 2 ^ w) : x >>> s < 2 ^ w := by
  rw [Nat.shiftRight_eq_div_pow]
  exact Nat.lt_of_le_of_lt (Nat.div_le_self _ _) h

theorem and_lt_of_left {x w : Nat} (y : Nat) (h : x < 2 ^ w) : x &&& y < 2 ^ w :=
  Nat.lt_of_le_of_lt Nat.and_le_left h

namespace mersenne_twister_engine

theorem twistWord_lt (p : MTParams) {w a b c : Nat} (ha : a < 2 ^ w) (hb : b < 2 ^ w)
    (hc : c < 2 ^ w) (hA : p.A < 2 ^ w) : twistWord p a b c < 2 ^ w := by
  unfold twistWord
  have hy : (a &&& UMASK p) ||| (b &&& LMASK p) < 2 ^ w :=
    Nat.or_lt_two_pow (and_lt_of_left _ ha) (and_lt_of_left _ hb)
  refine Nat.xor_lt_two_pow (Nat.xor_lt_two_pow hc (shiftRight_lt_two_pow 1 hy)) ?_
  split
  · exact hA
  · exact Nat.two_pow_pos w

theorem temper_lt (p : MTParams) {w y : Nat} (hy : y < 2 ^ w) (hB : p.B < 2 ^ w)
    (hC : p.C < 2 ^ w) : temper p y < 2 ^ w := by
  unfold temper
  have h1 : y ^^^ ((y >>> p.U) &&& p.D) < 2 ^ w :=
    Nat.xor_lt_two_pow hy (and_lt_of_left _ (shiftRight_lt_two_pow _ hy))
  have h2 : (y ^^^ ((y >>> p.U) &&& p.D))
      ^^^ (ushl p.bits (y ^^^ ((y >>> p.U) &&& p.D)) p.S &&& p.B) < 2 ^ w :=
    Nat.xor_lt_two_pow h1 (Nat.and_lt_two_pow _ hB)
  have h3 := Nat.xor_lt_two_pow h2
    (Nat.and_lt_two_pow (ushl p.bits ((y ^^^ ((y >>> p.U) &&& p.D))
      ^^^ (ushl p.bits (y ^^^ ((y >>> p.U) &&& p.D)) p.S &&& p.B)) p.T) hC)
  exact Nat.xor_lt_two_pow h3 (shiftRight_lt_two_pow _ h3)

theorem twistPassStep_below (p : MTParams) {w : Nat} (mt : List Nat) (i : Nat)
    (h : wordsBelow (2 ^ w) mt) (hA : p.A < 2 ^ w) :
    wordsBelow (2 ^ w) (twistPassStep p mt i) := by
  have hpos := Nat.two_pow_pos w
  rw [twistPassStep_eq]
  exact wordsBelow_set i h (twistWord_lt p (wordsBelow_getD _ h hpos)
    (wordsBelow_getD _ h hpos) (wordsBelow_getD _ h hpos) hA)

theorem twistPass_below (p : MTParams) {w : Nat} (mt : List Nat)
    (h : wordsBelow (2 ^ w) mt) (hA : p.A < 2 ^ w) : wordsBelow (2 ^ w) (twistPass p mt) := by
  unfold twistPass
  generalize p.N = n
  induction n with
  | zero => exact h
  | succ n ih =>
    rw [foldl_range_succ]
    exact twistPassStep_below p _ n ih hA

/-- A call keeps the array length and the bound on the words, does not fail, and
returns a value under the same bound. -/
theorem next_below (p : MTParams) {w : Nat} (st : MTState) (h0 : 0 < p.M) (hM : p.M < p.N)
    (hsz : p.N < 2 ^ p.szbits) (hA : p.A < 2 ^ w) (hB : p.B < 2 ^ w) (hC : p.C < 2 ^ w)
    (hlen : st.MT.length = p.N) (hw : wordsBelow (2 ^ w) st.MT) (hix : st.index ≤ p.N) :
    ∃ v st', next p st = some (v, st') ∧ v < 2 ^ w ∧
      st'.MT.length = p.N ∧ wordsBelow (2 ^ w) st'.MT ∧ st'.index ≤ p.N := by
  have hpos := Nat.two_pow_pos w
  by_cases hidx : st.index < p.N
  · exact ⟨_, _, next_of_lt p st hlen hsz hidx, temper_lt p (wordsBelow_getD _ hw hpos) hB hC,
      hlen, hw, hidx⟩
  · have hw2 := twistPass_below p st.MT hw hA
    refine ⟨_, _, next_of_ge p st h0 hM hsz hlen (by omega),
      temper_lt p (wordsBelow_getD _ hw2 hpos) hB hC, ?_, hw2, ?_⟩
    · show (twistPass p st.MT).length = p.N
      rw [twistPass_length, hlen]
    · show 1 ≤ p.N
      omega

theorem mt19937_seedRef_lt (value k : Nat) : mt19937_seedRef value k < 2 ^ 32 := by
  cases k with
  | zero => exact Nat.mod_lt _ (Nat.two_pow_pos 32)
  | succ k => exact Nat.mod_lt _ (Nat.two_pow_pos 32)

/-- Closed form of `seed` for `mt19937`: the seeding rule at every position. -/
theorem seed_mt19937 (b u s : Nat) (hb : b = 32 ∨ b = 64) (hu : u = 32 ∨ u = 64)
    (hs : s = 32 ∨ s = 64) (st : MTState) (hlen : st.MT.length = 624) (value : Nat) :
    ∃ mt, seed (mt19937 b u s) st value = some { index := 624, MT := mt } ∧
      mt.length = 624 ∧ (∀ k, k < 624 → mt.getD k 0 = mt19937_seedRef value k) ∧
      wordsBelow (2 ^ 32) mt := by
  have hsz : (mt19937 b u s).N < 2 ^ (mt19937 b u s).szbits := by
    show 624 < 2 ^ s
    rcases hs with rfl | rfl <;> decide
  obtain ⟨mt, hseed, hl, hall⟩ := mt_seed_eq (mt19937 b u s) st value hlen
    (show 0 < 624 by decide) hsz
  have hall2 : ∀ k, k < 624 → mt.getD k 0 = mt19937_seedRef value k := by
    intro k hk
    rw [hall k hk, seedNth_mt19937 b u s hb hu hs]
  refine ⟨mt, hseed, hl, hall2, ?_⟩
  intro x hx
  obtain ⟨k, hk, rfl⟩ := List.getElem_of_mem hx
  have hk2 : k < 624 := by
    have : mt.length = 624 := hl
    omega
  rw [← List.getD_eq_getElem mt 0 hk, hall2 k hk2]
  exact mt19937_seedRef_lt value k

theorem mt19937_consts (b u s : Nat) (hs : s = 32 ∨ s = 64) :
    0 < (mt19937 b u s).M ∧ (mt19937 b u s).M < (mt19937 b u s).N ∧
    (mt19937 b u s).N < 2 ^ (mt19937 b u s).szbits ∧
    (mt19937 b u s).A < 2 ^ 32 ∧ (mt19937 b u s).B < 2 ^ 32 ∧ (mt19937 b u s).C < 2 ^ 32 := by
  refine ⟨show 0 < 397 by decide, show 397 < 624 by decide, ?_,
    show 0x9908b0df < 2 ^ 32 by decide, show 0x9d2c5680 < 2 ^ 32 by decide,
    show 0xefc60000 < 2 ^ 32 by decide⟩
  show 624 < 2 ^ s
  rcases hs with rfl | rfl <;> decide

/-- C3: an `mt19937` engine seeded with the default seed 5489 returns 3499211612 from its
first call, whether the result type, `unsigned long` and `std::size_t` are 32 or 64 bits
wide, and whatever the array held before seeding. -/
theorem C3_mt19937_reference (b u s : Nat) (hb : b = 32 ∨ b = 64) (hu : u = 32 ∨ u = 64)
    (hs : s = 32 ∨ s = 64) (st : MTState) (hlen : st.MT.length = 624) :
    ((seed (mt19937 b u s) st default_seed).bind (next (mt19937 b u s))).map Prod.fst
      = some 3499211612 := by
  obtain ⟨h0, hM, hsz, -⟩ := mt19937_consts b u s hs
  obtain ⟨mt, hseed, hl, hall, -⟩ := seed_mt19937 b u s hb hu hs st hlen 5489
  have hnext : next (mt19937 b u s) { index := 624, MT := mt }
      = some (temper (mt19937 b u s) ((twistPass (mt19937 b u s) mt).getD 0 0),
          { index := 1, MT := twistPass (mt19937 b u s) mt }) :=
    next_of_ge (mt19937 b u s) { index := 624, MT := mt } h0 hM hsz hl (Nat.le_refl 624)
  have e1 : 1 % (mt19937 b u s).N = 1 := by show 1 % 624 = 1; rfl
  have e2 : (mt19937 b u s).M % (mt19937 b u s).N = 397 := by show 397 % 624 = 397; rfl
  have hw := twistPass_getD_zero (mt19937 b u s) mt hl (show 0 < 624 by decide)
  rw [e1, e2, hall 0 (by decide), hall 1 (by decide), hall 397 (by decide),
    seedRef_5489.1, seedRef_5489.2.1, seedRef_5489.2.2] at hw
  have hseed2 : seed (mt19937 b u s) st default_seed = some { index := 624, MT := mt } := hseed
  rw [hseed2, Option.some_bind, hnext, Option.map_some', hw, first_word b u s hb hu hs]

theorem C3_mt19937_reference_witness :
    (64 = 32 ∨ 64 = 64) ∧ (64 = 32 ∨ 64 = 64) ∧ (64 = 32 ∨ 64 = 64) ∧
    (({ index := 0, MT := List.replicate 624 0 } : MTState).MT.length = 624) ∧
    ((seed (mt19937 64 64 64) { index := 0, MT := List.replicate 624 0 } default_seed).bind
      (next (mt19937 64 64 64))).map Prod.fst = some 3499211612 :=
  ⟨Or.inr rfl, Or.inr rfl, Or.inr rfl, List.length_replicate _ _,
    C3_mt19937_reference 64 64 64 (Or.inr rfl) (Or.inr rfl) (Or.inr rfl)
      { index := 0, MT := List.replicate 624 0 } (List.length_replicate _ _)⟩

/-- C5: for `mt19937` and every value, `seed(value)` does not fail and leaves
`MT[0] = value mod 2^32`, `MT[i] = (1812433253 * (MT[i-1] XOR (MT[i-1] >> 30)) + i) mod 2^32`
over the natural numbers for every `1 <= i < 624`, and `index = 624`, whether the result
type, `unsigned long` and `std::size_t` are 32 or 64 bits wide.  In general, for every
parameter set `p` with `N >= 1` words (`N` a `std::size_t` value), `seed(value)` leaves
`MT[0] = value & MASK`, `MT[i] = (F * (MT[i-1] ^ (MT[i-1] >> (W-2))) + i) & MASK` in the
arithmetic of the result type (`seedWord`) for every `1 <= i < N`, and `index = N`. -/
theorem C5_mt19937_seed (b u s : Nat) (hb : b = 32 ∨ b = 64) (hu : u = 32 ∨ u = 64)
    (hs : s = 32 ∨ s = 64) (st : MTState) (hlen : st.MT.length = 624) (value : Nat)
    (p : MTParams) (stp : MTState) (hlenp : stp.MT.length = p.N) (hN : 0 < p.N)
    (hsz : p.N < 2 ^ p.szbits) :
    (∃ st', seed (mt19937 b u s) st value = some st' ∧ st'.index = 624 ∧
      st'.MT.length = 624 ∧ st'.MT.getD 0 0 = value % 2 ^ 32 ∧
      ∀ i, 1 ≤ i → i < 624 → st'.MT.getD i 0
        = (1812433253 * (st'.MT.getD (i - 1) 0 ^^^ (st'.MT.getD (i - 1) 0 >>> 30)) + i)
            % 2 ^ 32) ∧
    (∃ st', seed p stp value = some st' ∧ st'.index = p.N ∧
      st'.MT.length = p.N ∧ st'.MT.getD 0 0 = value &&& MASK p ∧
      ∀ i, 1 ≤ i → i < p.N → st'.MT.getD i 0 = seedWord p (st'.MT.getD (i - 1) 0) i) := by
  constructor
  · obtain ⟨mt, hseed, hl, hall, -⟩ := seed_mt19937 b u s hb hu hs st hlen value
    refine ⟨{ index := 624, MT := mt }, hseed, rfl, hl, hall 0 (by decide), ?_⟩
    intro i h1 hi
    obtain ⟨j, rfl⟩ : ∃ j, i = j + 1 := ⟨i - 1, by omega⟩
    show mt.getD (j + 1) 0 = mt19937_seedRule (mt.getD j 0) (j + 1)
    rw [hall (j + 1) hi, hall j (by omega)]
    rfl
  · obtain ⟨mt, hseed, hl, hall⟩ := mt_seed_eq p stp value hlenp hN hsz
    refine ⟨{ index := p.N, MT := mt }, hseed, rfl, hl, hall 0 hN, ?_⟩
    intro i h1 hi
    obtain ⟨j, rfl⟩ : ∃ j, i = j + 1 := ⟨i - 1, by omega⟩
    show mt.getD (j + 1) 0 = seedWord p (mt.getD j 0) (j + 1)
    rw [hall (j + 1) hi, hall j (by omega)]
    rfl

theorem C5_mt19937_seed_witness :
    (32 = 32 ∨ 32 = 64) ∧ (64 = 32 ∨ 64 = 64) ∧ (64 = 32 ∨ 64 = 64) ∧
    (({ index := 7, MT := List.replicate 624 9 } : MTState).MT.length = 624) ∧
    (({ index := 7, MT := List.replicate 624 9 } : MTState).MT.length
      = (mt19937 64 64 64).N) ∧
    (0 < (mt19937 64 64 64).N) ∧ ((mt19937 64 64 64).N < 2 ^ (mt19937 64 64 64).szbits) ∧
    (∃ st', seed (mt19937 32 64 64) { index := 7, MT := List.replicate 624 9 } 4294967297
        = some st' ∧ st'.index = 624 ∧
      st'.MT.length = 624 ∧ st'.MT.getD 0 0 = 4294967297 % 2 ^ 32 ∧
      ∀ i, 1 ≤ i → i < 624 → st'.MT.getD i 0
        = (1812433253 * (st'.MT.getD (i - 1) 0 ^^^ (st'.MT.getD (i - 1) 0 >>> 30)) + i)
            % 2 ^ 32) ∧
    (∃ st', seed (mt19937 64 64 64) { index := 7, MT := List.replicate 624 9 } 4294967297
        = some st' ∧ st'.index = (mt19937 64 64 64).N ∧
      st'.MT.length = (mt19937 64 64 64).N ∧
      st'.MT.getD 0 0 = 4294967297 &&& MASK (mt19937 64 64 64) ∧
      ∀ i, 1 ≤ i → i < (mt19937 64 64 64).N →
        st'.MT.getD i 0 = seedWord (mt19937 64 64 64) (st'.MT.getD (i - 1) 0) i) :=
  ⟨Or.inl rfl, Or.inr rfl, Or.inr rfl, List.length_replicate _ _, List.length_replicate _ _,
    by decide, by decide,
    C5_mt19937_seed 32 64 64 (Or.inl rfl) (Or.inr rfl) (Or.inr rfl)
      { index := 7, MT := List.replicate 624 9 } (List.length_replicate _ _) 4294967297
      (mt19937 64 64 64) { index := 7, MT := List.replicate 624 9 }
      (List.length_replicate _ _) (by decide) (by decide)⟩

/-- C6: for every parameter set with `0 < Mshift < N` (`N` a `std::size_t` value) and
every content of the `N` words, the regeneration that `operator()` performs when
`index >= N`, written as two loops and a last position, does not fail and produces the
array of the one-pass regeneration `twistPass` with `index = 0`; the call then reads the
draw at position 0 of the regenerated array. -/
theorem C6_regenerate_is_one_pass (p : MTParams) (st : MTState) (h0 : 0 < p.M)
    (hM : p.M < p.N) (hsz : p.N < 2 ^ p.szbits) (hlen : st.MT.length = p.N)
    (hidx : p.N ≤ st.index) :
    regenerate p st = some { index := 0, MT := twistPass p st.MT } ∧
    next p st = some (temper p ((twistPass p st.MT).getD 0 0),
      { index := 1, MT := twistPass p st.MT }) :=
  ⟨regenerate_eq p st h0 hM hsz hlen hidx, next_of_ge p st h0 hM hsz hlen hidx⟩

theorem C6_regenerate_is_one_pass_witness :
    (0 < (mt19937 32 32 32).M) ∧ ((mt19937 32 32 32).M < (mt19937 32 32 32).N) ∧
    ((mt19937 32 32 32).N < 2 ^ (mt19937 32 32 32).szbits) ∧
    (({ index := 624, MT := List.replicate 624 2147483649 } : MTState).MT.length = (mt19937 32 32 32).N) ∧
    ((mt19937 32 32 32).N ≤ ({ index := 624, MT := List.replicate 624 2147483649 } : MTState).index) ∧
    regenerate (mt19937 32 32 32) { index := 624, MT := List.replicate 624 2147483649 }
      = some { index := 0, MT := twistPass (mt19937 32 32 32) (List.replicate 624 2147483649) } ∧
    next (mt19937 32 32 32) { index := 624, MT := List.replicate 624 2147483649 }
      = some (temper (mt19937 32 32 32)
          ((twistPass (mt19937 32 32 32) (List.replicate 624 2147483649)).getD 0 0),
        { index := 1, MT := twistPass (mt19937 32 32 32) (List.replicate 624 2147483649) }) :=
  ⟨by decide, by decide, by decide, List.length_replicate _ _, Nat.le_refl 624,
    C6_regenerate_is_one_pass (mt19937 32 32 32) { index := 624, MT := List.replicate 624 2147483649 }
      (by decide) (by decide) (by decide) (List.length_replicate _ _) (Nat.le_refl 624)⟩

/-- C7: for every state of `N` words (`N` a `std::size_t` value) with `index < N`, the
call operator leaves the array unchanged, increases `index` by one and returns the
tempered `MT[index]` of the old index; for a state with `index >= N` (and
`0 < Mshift < N`) it returns the tempered first word of the regenerated array and leaves
`index = 1`.  Tempering applies `y ^= (y >> U) & D`, `y ^= (y << S) & B`,
`y ^= (y << T) & C`, `y ^= (y >> L)` in this order, the left shifts at the width of the
result type. -/
theorem C7_next (p : MTParams) (st : MTState) (hlen : st.MT.length = p.N)
    (hsz : p.N < 2 ^ p.szbits) :
    (st.index < p.N →
      next p st = some (temper p (st.MT.getD st.index 0),
        { index := st.index + 1, MT := st.MT })) ∧
    (p.N ≤ st.index → 0 < p.M → p.M < p.N →
      ∃ mt, regenerate p st = some { index := 0, MT := mt } ∧
        next p st = some (temper p (mt.getD 0 0), { index := 1, MT := mt })) ∧
    (∀ y0, ∃ y1 y2 y3, y1 = y0 ^^^ ((y0 >>> p.U) &&& p.D) ∧
      y2 = y1 ^^^ (ushl p.bits y1 p.S &&& p.B) ∧
      y3 = y2 ^^^ (ushl p.bits y2 p.T &&& p.C) ∧
      temper p y0 = y3 ^^^ (y3 >>> p.L)) := by
  refine ⟨next_of_lt p st hlen hsz, ?_, ?_⟩
  · intro hidx h0 hM
    exact ⟨twistPass p st.MT, regenerate_eq p st h0 hM hsz hlen hidx,
      next_of_ge p st h0 hM hsz hlen hidx⟩
  · intro y0
    exact ⟨_, _, _, rfl, rfl, rfl, rfl⟩

theorem C7_next_witness :
    (({ index := 3, MT := List.replicate 624 2147483649 } : MTState).MT.length = (mt19937 64 64 64).N) ∧
    ((mt19937 64 64 64).N < 2 ^ (mt19937 64 64 64).szbits) ∧
    (({ index := 3, MT := List.replicate 624 2147483649 } : MTState).index < (mt19937 64 64 64).N) ∧
    next (mt19937 64 64 64) { index := 3, MT := List.replicate 624 2147483649 }
      = some (temper (mt19937 64 64 64) ((List.replicate 624 2147483649).getD 3 0),
          { index := 3 + 1, MT := List.replicate 624 2147483649 }) ∧
    ((mt19937 64 64 64).N ≤ ({ index := 624, MT := List.replicate 624 2147483649 } : MTState).index) ∧
    (0 < (mt19937 64 64 64).M) ∧ ((mt19937 64 64 64).M < (mt19937 64 64 64).N) ∧
    ∃ mt, regenerate (mt19937 64 64 64) { index := 624, MT := List.replicate 624 2147483649 }
        = some { index := 0, MT := mt } ∧
      next (mt19937 64 64 64) { index := 624, MT := List.replicate 624 2147483649 }
        = some (temper (mt19937 64 64 64) (mt.getD 0 0), { index := 1, MT := mt }) :=
  ⟨List.length_replicate _ _, by decide, by decide,
    (C7_next (mt19937 64 64 64) { index := 3, MT := List.replicate 624 2147483649 }
      (List.length_replicate _ _) (by decide)).1 (by decide),
    Nat.le_refl 624, by decide, by decide,
    (C7_next (mt19937 64 64 64) { index := 624, MT := List.replicate 624 2147483649 }
      (List.length_replicate _ _) (by decide)).2.1 (Nat.le_refl 624) (by decide) (by decide)⟩

/-- C9: for `mt19937`, every seed value and every `k`, the `k` calls after `seed(value)`
all succeed and every value they return lies between `min() = 0` and
`max() = 4294967295`, whether the result type, `unsigned long` and `std::size_t` are 32
or 64 bits wide. -/
theorem C9_mt19937_bounds (b u s : Nat) (hb : b = 32 ∨ b = 64) (hu : u = 32 ∨ u = 64)
    (hs : s = 32 ∨ s = 64) (st : MTState) (hlen : st.MT.length = 624) (value k : Nat) :
    min (mt19937 b u s) = 0 ∧ max (mt19937 b u s) = 4294967295 ∧
    ∃ outs st', (seed (mt19937 b u s) st value).bind (callsN (next (mt19937 b u s)) k)
        = some (outs, st') ∧
      outs.length = k ∧ ∀ v ∈ outs, min (mt19937 b u s) ≤ v ∧ v ≤ max (mt19937 b u s) := by
  obtain ⟨h0, hM, hsz, hA, hB, hC⟩ := mt19937_consts b u s hs
  obtain ⟨mt, hseed, hl, -, hw⟩ := seed_mt19937 b u s hb hu hs st hlen value
  have hmax : max (mt19937 b u s) = 4294967295 := MASK_mt19937 b u s hb hu hs
  obtain ⟨outs, st', hc, hlen', hout, -⟩ := callsN_inv (next (mt19937 b u s))
    (fun t => t.MT.length = (mt19937 b u s).N ∧ wordsBelow (2 ^ 32) t.MT ∧
      t.index ≤ (mt19937 b u s).N)
    (fun v => v < 2 ^ 32)
    (by
      intro t ⟨ht1, ht2, ht3⟩
      exact next_below (mt19937 b u s) t h0 hM hsz hA hB hC ht1 ht2 ht3)
    k { index := 624, MT := mt } ⟨hl, hw, Nat.le_refl 624⟩
  refine ⟨rfl, hmax, outs, st', ?_, hlen', ?_⟩
  · rw [hseed, Option.some_bind, hc]
  · intro v hv
    have hv2 : v < 2 ^ 32 := hout v hv
    rw [hmax]
    constructor
    · exact Nat.zero_le v
    · norm_num at hv2
      omega

theorem C9_mt19937_bounds_witness :
    (64 = 32 ∨ 64 = 64) ∧ (64 = 32 ∨ 64 = 64) ∧ (64 = 32 ∨ 64 = 64) ∧
    (({ index := 0, MT := List.replicate 624 0 } : MTState).MT.length = 624) ∧
    min (mt19937 64 64 64) = 0 ∧ max (mt19937 64 64 64) = 4294967295 ∧
    ∃ outs st', (seed (mt19937 64 64 64) { index := 0, MT := List.replicate 624 0 }
          18446744073709551615).bind (callsN (next (mt19937 64 64 64)) 1000)
        = some (outs, st') ∧
      outs.length = 1000 ∧
      ∀ v ∈ outs, min (mt19937 64 64 64) ≤ v ∧ v ≤ max (mt19937 64 64 64) :=
  ⟨Or.inr rfl, Or.inr rfl, Or.inr rfl, List.length_replicate _ _,
    C9_mt19937_bounds 64 64 64 (Or.inr rfl) (Or.inr rfl) (Or.inr rfl)
      { index := 0, MT := List.replicate 624 0 } (List.length_replicate _ _)
      18446744073709551615 1000⟩

end mersenne_twister_engine

/-- C10: for both engines, every state and every `n`, `discard(n)` leaves exactly the
state reached by `n` successive calls (failing exactly when one of them fails), and
`discard(n)` followed by one call returns the value and leaves the state of the last of
`n + 1` successive calls. -/
theorem C10_discard (pl : LCGParams) (pm : MTParams) (n data : Nat) (st : MTState) :
    (linear_congruential_engine.discard pl n data
        = (callsN (linear_congruential_engine.next pl) n data).map Prod.snd ∧
      (linear_congruential_engine.discard pl n data).bind (linear_congruential_engine.next pl)
        = (callsN (linear_congruential_engine.next pl) (n + 1) data).bind
            fun r => r.1.getLast?.map fun v => (v, r.2)) ∧
    (mersenne_twister_engine.discard pm n st
        = (callsN (mersenne_twister_engine.next pm) n st).map Prod.snd ∧
      (mersenne_twister_engine.discard pm n st).bind (mersenne_twister_engine.next pm)
        = (callsN (mersenne_twister_engine.next pm) (n + 1) st).bind
            fun r => r.1.getLast?.map fun v => (v, r.2)) := by
  have hl0 : ∀ d, linear_congruential_engine.discard pl 0 d = some d := fun _ => rfl
  have hls : ∀ z d, linear_congruential_engine.discard pl (z + 1) d
      = (linear_congruential_engine.next pl d).bind
          fun r => linear_congruential_engine.discard pl z r.2 := fun _ _ => rfl
  have hm0 : ∀ t, mersenne_twister_engine.discard pm 0 t = some t := fun _ => rfl
  have hms : ∀ z t, mersenne_twister_engine.discard pm (z + 1) t
      = (mersenne_twister_engine.next pm t).bind
          fun r => mersenne_twister_engine.discard pm z r.2 := fun _ _ => rfl
  exact ⟨⟨discard_eq_callsN _ _ hl0 hls n data, discard_then_call _ _ hl0 hls n data⟩,
    ⟨discard_eq_callsN _ _ hm0 hms n st, discard_then_call _ _ hm0 hms n st⟩⟩

/-! ## Reseeding, seed fallback and reported bounds -/

theorem list_eq_of_getD {l1 l2 : List Nat} (hlen : l1.length = l2.length)
    (h : ∀ k, k < l1.length → l1.getD k 0 = l2.getD k 0) : l1 = l2 := by
  apply List.ext_getElem hlen
  intro i h1 h2
  have e := h i h1
  rwa [List.getD_eq_getElem _ _ h1, List.getD_eq_getElem _ _ h2] at e

namespace mersenne_twister_engine

/-- The state left by `seed` does not depend on the state it starts from. -/
theorem seed_independent (p : MTParams) (st raw : MTState) (value : Nat)
    (hst : st.MT.length = p.N) (hraw : raw.MT.length = p.N) (hN : 0 < p.N)
    (hsz : p.N < 2 ^ p.szbits) :
    ∃ st', seed p st value = some st' ∧ seed p raw value = some st' ∧
      st'.index = p.N ∧ st'.MT.length = p.N := by
  obtain ⟨mt1, h1, hl1, hall1⟩ := mt_seed_eq p st value hst hN hsz
  obtain ⟨mt2, h2, hl2, hall2⟩ := mt_seed_eq p raw value hraw hN hsz
  have e : mt1 = mt2 := by
    apply list_eq_of_getD (by omega)
    intro k hk
    rw [hall1 k (by omega), hall2 k (by omega)]
  subst e
  exact ⟨_, h1, h2, rfl, hl1⟩

end mersenne_twister_engine

/-- C11: for both engines and every value `v`, `seed(v)` on an engine in any state leaves
exactly the state of a freshly constructed engine seeded with `v` (LCG: `_data`; MT: all
`N` words and `index`, whatever the array and cursor held before), so the values of the
subsequent calls are the same. -/
theorem C11_reseed (pl : LCGParams) (pm : MTParams) (st raw : MTState) (v k : Nat)
    (hst : st.MT.length = pm.N) (hraw : raw.MT.length = pm.N) (hN : 0 < pm.N)
    (hsz : pm.N < 2 ^ pm.szbits) :
    (linear_congruential_engine.seed pl v = linear_congruential_engine.construct pl v ∧
      (linear_congruential_engine.seed pl v).bind
          (callsN (linear_congruential_engine.next pl) k)
        = (linear_congruential_engine.construct pl v).bind
          (callsN (linear_congruential_engine.next pl) k)) ∧
    (∃ st', mersenne_twister_engine.seed pm st v = some st' ∧
      mersenne_twister_engine.construct pm raw v = some st' ∧
      st'.index = pm.N ∧ st'.MT.length = pm.N) ∧
    (mersenne_twister_engine.seed pm st v).bind
        (callsN (mersenne_twister_engine.next pm) k)
      = (mersenne_twister_engine.construct pm raw v).bind
        (callsN (mersenne_twister_engine.next pm) k) := by
  obtain ⟨st', h1, h2, hi, hl⟩ :=
    mersenne_twister_engine.seed_independent pm st raw v hst hraw hN hsz
  refine ⟨⟨rfl, rfl⟩, ⟨st', h1, h2, hi, hl⟩, ?_⟩
  unfold mersenne_twister_engine.construct
  rw [h1, h2]

theorem C11_reseed_witness :
    (({ index := 17, MT := List.replicate 624 5 } : MTState).MT.length
      = (mt19937 64 64 64).N) ∧
    (({ index := 0, MT := List.replicate 624 0 } : MTState).MT.length
      = (mt19937 64 64 64).N) ∧
    (0 < (mt19937 64 64 64).N) ∧ ((mt19937 64 64 64).N < 2 ^ (mt19937 64 64 64).szbits) ∧
    (linear_congruential_engine.seed (minstd_rand 32) 42
        = linear_congruential_engine.construct (minstd_rand 32) 42 ∧
      (linear_congruential_engine.seed (minstd_rand 32) 42).bind
          (callsN (linear_congruential_engine.next (minstd_rand 32)) 3)
        = (linear_congruential_engine.construct (minstd_rand 32) 42).bind
          (callsN (linear_congruential_engine.next (minstd_rand 32)) 3)) ∧
    (∃ st', mersenne_twister_engine.seed (mt19937 64 64 64)
          { index := 17, MT := List.replicate 624 5 } 42 = some st' ∧
      mersenne_twister_engine.construct (mt19937 64 64 64)
          { index := 0, MT := List.replicate 624 0 } 42 = some st' ∧
      st'.index = (mt19937 64 64 64).N ∧ st'.MT.length = (mt19937 64 64 64).N) ∧
    (mersenne_twister_engine.seed (mt19937 64 64 64)
          { index := 17, MT := List.replicate 624 5 } 42).bind
        (callsN (mersenne_twister_engine.next (mt19937 64 64 64)) 3)
      = (mersenne_twister_engine.construct (mt19937 64 64 64)
          { index := 0, MT := List.replicate 624 0 } 42).bind
        (callsN (mersenne_twister_engine.next (mt19937 64 64 64)) 3) :=
  ⟨List.length_replicate _ _, List.length_replicate _ _, by decide, by decide,
    C11_reseed (minstd_rand 32) (mt19937 64 64 64)
      { index := 17, MT := List.replicate 624 5 } { index := 0, MT := List.replicate 624 0 }
      42 3 (List.length_replicate _ _) (List.length_replicate _ _) (by decide) (by decide)⟩

namespace linear_congruential_engine

theorem seed_zero_one (p : LCGParams) (hi : p.increment = 0) (hm : p.modulus = 2147483647) :
    seed p 0 = some 1 ∧ seed p 1 = some 1 := by
  rw [lcg_seed_eq p 0 (by omega), lcg_seed_eq p 1 (by omega), hi, hm]
  simp [default_seed]

/-- C12: for `minstd_rand0` and `minstd_rand`, `seed(0)` leaves exactly the state that
`seed(1)` leaves (`_data = 1`), so the values of the subsequent calls are those of an
engine seeded with 1, and none of them is zero. -/
theorem C12_seed_zero (bits : Nat) (hb : 32 ≤ bits) (p : LCGParams)
    (hp : p = minstd_rand0 bits ∨ p = minstd_rand bits) (k : Nat) :
    seed p 0 = some 1 ∧ seed p 1 = some 1 ∧
    ∃ outs d, (seed p 0).bind (callsN (next p) k) = some (outs, d) ∧
      (seed p 1).bind (callsN (next p) k) = some (outs, d) ∧
      outs.length = k ∧ ∀ v ∈ outs, v ≠ 0 := by
  have hpi : p.increment = 0 ∧ p.modulus = 2147483647 := by
    rcases hp with rfl | rfl <;> exact ⟨rfl, rfl⟩
  obtain ⟨h0, h1⟩ := seed_zero_one p hpi.1 hpi.2
  obtain ⟨outs, d, hc, hlen, hout, -⟩ :=
    callsN_inv (next p) minstdState minstdState (next_minstd_inv bits hb p hp) k 1
      (by unfold minstdState; omega)
  refine ⟨h0, h1, outs, d, by rw [h0, Option.some_bind, hc], by rw [h1, Option.some_bind, hc],
    hlen, ?_⟩
  intro v hv
  have := hout v hv
  unfold minstdState at this
  omega

theorem C12_seed_zero_witness :
    (32 ≤ 32) ∧ (minstd_rand0 32 = minstd_rand0 32 ∨ minstd_rand0 32 = minstd_rand 32) ∧
    seed (minstd_rand0 32) 0 = some 1 ∧ seed (minstd_rand0 32) 1 = some 1 ∧
    ∃ outs d, (seed (minstd_rand0 32) 0).bind (callsN (next (minstd_rand0 32)) 4)
        = some (outs, d) ∧
      (seed (minstd_rand0 32) 1).bind (callsN (next (minstd_rand0 32)) 4) = some (outs, d) ∧
      outs.length = 4 ∧ ∀ v ∈ outs, v ≠ 0 :=
  ⟨by decide, Or.inl rfl, C12_seed_zero 32 (by decide) (minstd_rand0 32) (Or.inl rfl) 4⟩

/-- C13: for every parameter set with `M > 0` (`M` a value of the result type), `min()`
returns 1 if `C == 0` and 0 otherwise, and `max()` returns `M - 1`. -/
theorem C13_min_max (p : LCGParams) (hM : 0 < p.modulus) (hfit : p.modulus < 2 ^ p.bits) :
    min p = (if p.increment = 0 then 1 else 0) ∧ max p = p.modulus - 1 :=
  ⟨rfl, usub_of_le hM hfit⟩

theorem C13_min_max_witness :
    (0 < (minstd_rand 32).modulus) ∧ ((minstd_rand 32).modulus < 2 ^ (minstd_rand 32).bits) ∧
    min (minstd_rand 32) = (if (minstd_rand 32).increment = 0 then 1 else 0) ∧
    max (minstd_rand 32) = (minstd_rand 32).modulus - 1 :=
  ⟨by decide, by decide, C13_min_max (minstd_rand 32) (by decide) (by decide)⟩

/-- C14, as the code has it: for `minstd_rand0`, `max()` equals 2147483646 and `min()`
equals 1, the increment being zero. -/
theorem C14_minstd_rand0_min_max (bits : Nat) (hb : 32 ≤ bits) :
    max (minstd_rand0 bits) = 2147483646 ∧ min (minstd_rand0 bits) = 1 := by
  obtain ⟨h1, h2⟩ := min_max_minstd bits hb (minstd_rand0 bits) (Or.inl rfl)
  exact ⟨h2, h1⟩

theorem C14_minstd_rand0_min_max_witness :
    (32 ≤ 32) ∧ max (minstd_rand0 32) = 2147483646 ∧ min (minstd_rand0 32) = 1 :=
  ⟨by decide, C14_minstd_rand0_min_max 32 (by decide)⟩

/-- C14 as stated fails: `min()` of `minstd_rand0` is not 0, for a result type of 32 and of
64 bits. -/
theorem C14_counterexample :
    ¬ (max (minstd_rand0 32) = 2147483646 ∧ min (minstd_rand0 32) = 0) ∧
    ¬ (max (minstd_rand0 64) = 2147483646 ∧ min (minstd_rand0 64) = 0) := by
  decide

end linear_congruential_engine

namespace mersenne_twister_engine

/-- With a 64-bit `unsigned long` and result type, `MASK` has exactly the low `W` bits
set. -/
theorem MASK_width64 (p : MTParams) (hb : p.bits = 64) (hu : p.ulbits = 64) (hW1 : 1 ≤ p.W)
    (hW : p.W ≤ 64) (hsz : p.W < 2 ^ p.szbits) : MASK p = 2 ^ p.W - 1 := by
  unfold MASK
  rw [hb, hu, usub_of_le hW1 hsz]
  generalize p.W = w at hW1 hW
  interval_cases w <;> decide

/-- C15: for every word size `W` with `1 <= W <= 64`, `unsigned long` and the result
type being 64 bits wide (`W` a `std::size_t` value), `max()` returns `2^W - 1` and `min()`
returns 0; for `mt19937`, `max()` equals 4294967295. -/
theorem C15_max_min (p : MTParams) (hb : p.bits = 64) (hu : p.ulbits = 64) (hW1 : 1 ≤ p.W)
    (hW : p.W ≤ 64) (hsz : p.W < 2 ^ p.szbits) :
    max p = 2 ^ p.W - 1 ∧ min p = 0 ∧
    max (mt19937 64 64 64) = 4294967295 ∧ min (mt19937 64 64 64) = 0 :=
  ⟨MASK_width64 p hb hu hW1 hW hsz, rfl,
    MASK_mt19937 64 64 64 (Or.inr rfl) (Or.inr rfl) (Or.inr rfl), rfl⟩

theorem C15_max_min_witness :
    ((mt19937 64 64 64).bits = 64) ∧ ((mt19937 64 64 64).ulbits = 64) ∧
    (1 ≤ (mt19937 64 64 64).W) ∧ ((mt19937 64 64 64).W ≤ 64) ∧
    ((mt19937 64 64 64).W < 2 ^ (mt19937 64 64 64).szbits) ∧
    max (mt19937 64 64 64) = 2 ^ (mt19937 64 64 64).W - 1 ∧ min (mt19937 64 64 64) = 0 ∧
    max (mt19937 64 64 64) = 4294967295 ∧ min (mt19937 64 64 64) = 0 :=
  ⟨rfl, rfl, by decide, by decide, by decide,
    C15_max_min (mt19937 64 64 64) rfl rfl (by decide) (by decide) (by decide)⟩

end mersenne_twister_engine

/-! ## State invariants along sequences of calls -/

/-- An invariant that every call preserves, without failing, is preserved by the loop
of `discard`, which does not fail. -/
theorem discard_inv {σ : Type} (step : σ → Option (Nat × σ)) (disc : Nat → σ → Option σ)
    (h0 : ∀ s, disc 0 s = some s)
    (hs : ∀ z s, disc (z + 1) s = (step s).bind fun r => disc z r.2) (Inv : σ → Prop)
    (hstep : ∀ s, Inv s → ∃ v s', step s = some (v, s') ∧ Inv s') :
    ∀ n s, Inv s → ∃ s', disc n s = some s' ∧ Inv s' := by
  intro n
  induction n with
  | zero => intro s h; exact ⟨s, h0 s, h⟩
  | succ n ih =>
    intro s h
    obtain ⟨v, s1, h1, hi1⟩ := hstep s h
    obtain ⟨s2, h2, hi2⟩ := ih s1 hi1
    exact ⟨s2, by rw [hs, h1, Option.some_bind]; exact h2, hi2⟩

/-- An invariant that every call preserves, without failing, holds after every sequence
of calls of `operator()` and `discard`, none of which fails. -/
theorem runOps_inv {σ : Type} (step : σ → Option (Nat × σ)) (disc : Nat → σ → Option σ)
    (h0 : ∀ s, disc 0 s = some s)
    (hs : ∀ z s, disc (z + 1) s = (step s).bind fun r => disc z r.2) (Inv : σ → Prop)
    (hstep : ∀ s, Inv s → ∃ v s', step s = some (v, s') ∧ Inv s') :
    ∀ ops s, Inv s → ∃ s', runOps step disc ops s = some s' ∧ Inv s' := by
  intro ops
  induction ops with
  | nil => intro s h; exact ⟨s, rfl, h⟩
  | cons op ops ih =>
    intro s h
    cases op with
    | call =>
      obtain ⟨v, s1, h1, hi1⟩ := hstep s h
      obtain ⟨s2, h2, hi2⟩ := ih s1 hi1
      exact ⟨s2, by rw [runOps, h1, Option.some_bind]; exact h2, hi2⟩
    | skip z =>
      obtain ⟨s1, h1, hi1⟩ := discard_inv step disc h0 hs Inv hstep z s h
      obtain ⟨s2, h2, hi2⟩ := ih s1 hi1
      exact ⟨s2, by rw [runOps, h1, Option.some_bind]; exact h2, hi2⟩

namespace linear_congruential_engine

/-- The increment step computes `(data + C) mod M` for `data < M` and `C < M`. -/
theorem addStep_eq (p : LCGParams) (data : Nat) (hC : p.increment < p.modulus)
    (hfit : p.modulus < 2 ^ p.bits) (hd : data < p.modulus) :
    addStep p data = (data + p.increment) % p.modulus := by
  unfold addStep
  have ed : usub p.bits p.modulus data = p.modulus - data := usub_of_le (by omega) hfit
  split
  · simp only [ed]
    split
    · rename_i h
      rw [uadd_of_lt (by omega)]
      exact (Nat.mod_eq_of_lt (by omega)).symm
    · rename_i h
      rw [usub_of_le (by omega) (by omega), mod_sub_of_le (by omega) (by omega)]
      omega
  · rename_i h
    have h0 : p.increment = 0 := by omega
    rw [h0, Nat.add_zero]
    exact (Nat.mod_eq_of_lt hd).symm

/-- The call operator computes the linear congruential update for every parameter set
that meets Schrage's condition. -/
theorem next_eq (p : LCGParams) (data : Nat) (hA : 1 ≤ p.multiplier)
    (hr : p.modulus % p.multiplier ≤ p.modulus / p.multiplier)
    (hC : p.increment < p.modulus) (hfit : p.modulus < 2 ^ p.bits) (hd : data < p.modulus) :
    next p data = some ((p.multiplier * data + p.increment) % p.modulus,
      (p.multiplier * data + p.increment) % p.modulus) := by
  unfold next
  rw [mulStep_eq p data hA hr hfit hd]
  simp only [Option.bind_eq_bind, Option.some_bind]
  rw [addStep_eq p _ hC hfit (Nat.mod_lt _ (by omega)), Nat.mod_add_mod]

/-- C16, as the code has it: for every parameter set with `M > 1`, `A >= 1`, `C < M` and
`M mod A <= M / A` (`M` a value of the result type) and every seed value, `seed` does not
fail and the state satisfies `0 <= data < M` after `seed` and after every sequence of
subsequent `operator()` and `discard` calls, none of which fails. -/
theorem C16_state_below_modulus (p : LCGParams) (hM : 1 < p.modulus) (hA : 1 ≤ p.multiplier)
    (hr : p.modulus % p.multiplier ≤ p.modulus / p.multiplier)
    (hC : p.increment < p.modulus) (hfit : p.modulus < 2 ^ p.bits) (value : Nat)
    (ops : List EngineOp) :
    (∃ d, seed p value = some d ∧ d < p.modulus) ∧
    ∃ d, (seed p value).bind (runOps (next p) (discard p) ops) = some d ∧ d < p.modulus := by
  have hseed : ∃ d, seed p value = some d ∧ d < p.modulus := by
    refine ⟨_, lcg_seed_eq p value (by omega), ?_⟩
    split
    · exact hM
    · exact Nat.mod_lt _ (by omega)
  refine ⟨hseed, ?_⟩
  obtain ⟨d0, hd0, hlt0⟩ := hseed
  obtain ⟨d, hrun, hlt⟩ := runOps_inv (next p) (discard p) (fun _ => rfl) (fun _ _ => rfl)
    (fun d => d < p.modulus)
    (fun d hd => ⟨_, _, next_eq p d hA hr hC hfit hd, Nat.mod_lt _ (by omega)⟩) ops d0 hlt0
  exact ⟨d, by rw [hd0, Option.some_bind]; exact hrun, hlt⟩

theorem C16_state_below_modulus_witness :
    (1 < (minstd_rand0 32).modulus) ∧ (1 ≤ (minstd_rand0 32).multiplier) ∧
    ((minstd_rand0 32).modulus % (minstd_rand0 32).multiplier
      ≤ (minstd_rand0 32).modulus / (minstd_rand0 32).multiplier) ∧
    ((minstd_rand0 32).increment < (minstd_rand0 32).modulus) ∧
    ((minstd_rand0 32).modulus < 2 ^ (minstd_rand0 32).bits) ∧
    (∃ d, seed (minstd_rand0 32) 0 = some d ∧ d < (minstd_rand0 32).modulus) ∧
    ∃ d, (seed (minstd_rand0 32) 0).bind
        (runOps (next (minstd_rand0 32)) (discard (minstd_rand0 32))
          [EngineOp.call, EngineOp.skip 5, EngineOp.call]) = some d ∧
      d < (minstd_rand0 32).modulus :=
  ⟨by decide, by decide, by decide, by decide, by decide,
    C16_state_below_modulus (minstd_rand0 32) (by decide) (by decide) (by decide) (by decide)
      (by decide) 0 [EngineOp.call, EngineOp.skip 5, EngineOp.call]⟩

/-- C16 as stated fails: with `M = 1` the state after `seed` is 1; with `A = 0` the call
divides by zero; with `M mod A > M / A` or `C >= M` a call leaves a state that is not
below `M`. -/
theorem C16_counterexample :
    (0 < ({ bits := 32, multiplier := 16807, increment := 0, modulus := 1 } : LCGParams).modulus ∧
      seed { bits := 32, multiplier := 16807, increment := 0, modulus := 1 } 0 = some 1 ∧
      ¬ (1 < ({ bits := 32, multiplier := 16807, increment := 0, modulus := 1 }
        : LCGParams).modulus)) ∧
    (seed { bits := 32, multiplier := 0, increment := 0, modulus := 7 } 3 = some 3 ∧
      next { bits := 32, multiplier := 0, increment := 0, modulus := 7 } 3 = none) ∧
    (seed { bits := 32, multiplier := 5, increment := 0, modulus := 7 } 6 = some 6 ∧
      next { bits := 32, multiplier := 5, increment := 0, modulus := 7 } 6
        = some (4294967291, 4294967291)) ∧
    (seed { bits := 32, multiplier := 1, increment := 10, modulus := 7 } 6 = some 6 ∧
      next { bits := 32, multiplier := 1, increment := 10, modulus := 7 } 6 = some (9, 9)) := by
  decide

end linear_congruential_engine

namespace mersenne_twister_engine

/-- C17: for `mt19937`, after `seed(v)` for every `v` and after every sequence of
subsequent `operator()` and `discard` calls, none of which fails, the cursor satisfies
`0 <= index <= N` and every stored word `MT[i]` (`0 <= i < N`) is below `2^32`, whether
the result type, `unsigned long` and `std::size_t` are 32 or 64 bits wide. -/
theorem C17_mt19937_state (b u s : Nat) (hb : b = 32 ∨ b = 64) (hu : u = 32 ∨ u = 64)
    (hs : s = 32 ∨ s = 64) (st : MTState) (hlen : st.MT.length = 624) (v : Nat)
    (ops : List EngineOp) :
    (∃ st', seed (mt19937 b u s) st v = some st' ∧ st'.index ≤ 624 ∧ st'.MT.length = 624 ∧
      ∀ i, i < 624 → st'.MT.getD i 0 < 2 ^ 32) ∧
    ∃ st', (seed (mt19937 b u s) st v).bind
        (runOps (next (mt19937 b u s)) (discard (mt19937 b u s)) ops) = some st' ∧
      st'.index ≤ 624 ∧ st'.MT.length = 624 ∧ ∀ i, i < 624 → st'.MT.getD i 0 < 2 ^ 32 := by
  obtain ⟨h0, hM, hsz, hA, hB, hC⟩ := mt19937_consts b u s hs
  obtain ⟨mt, hseed, hl, -, hw⟩ := seed_mt19937 b u s hb hu hs st hlen v
  have hpos : 0 < 2 ^ 32 := Nat.two_pow_pos 32
  obtain ⟨st', hrun, hl', hw', hi'⟩ := runOps_inv (next (mt19937 b u s))
    (discard (mt19937 b u s)) (fun _ => rfl) (fun _ _ => rfl)
    (fun t => t.MT.length = (mt19937 b u s).N ∧ wordsBelow (2 ^ 32) t.MT ∧
      t.index ≤ (mt19937 b u s).N)
    (by
      intro t ⟨ht1, ht2, ht3⟩
      obtain ⟨y, t', hn, -, hr⟩ :=
        next_below (mt19937 b u s) t h0 hM hsz hA hB hC ht1 ht2 ht3
      exact ⟨y, t', hn, hr⟩)
    ops { index := 624, MT := mt } ⟨hl, hw, Nat.le_refl 624⟩
  refine ⟨⟨_, hseed, Nat.le_refl 624, hl, fun i _ => wordsBelow_getD i hw hpos⟩, st', ?_,
    hi', hl', fun i _ => wordsBelow_getD i hw' hpos⟩
  rw [hseed, Option.some_bind]
  exact hrun

theorem C17_mt19937_state_witness :
    (64 = 32 ∨ 64 = 64) ∧ (64 = 32 ∨ 64 = 64) ∧ (64 = 32 ∨ 64 = 64) ∧
    (({ index := 0, MT := List.replicate 624 18446744073709551615 } : MTState).MT.length
      = 624) ∧
    (∃ st', seed (mt19937 64 64 64)
        { index := 0, MT := List.replicate 624 18446744073709551615 }
        18446744073709551615 = some st' ∧
      st'.index ≤ 624 ∧ st'.MT.length = 624 ∧ ∀ i, i < 624 → st'.MT.getD i 0 < 2 ^ 32) ∧
    ∃ st', (seed (mt19937 64 64 64)
        { index := 0, MT := List.replicate 624 18446744073709551615 }
        18446744073709551615).bind
        (runOps (next (mt19937 64 64 64)) (discard (mt19937 64 64 64))
          [EngineOp.call, EngineOp.skip 700, EngineOp.call]) = some st' ∧
      st'.index ≤ 624 ∧ st'.MT.length = 624 ∧ ∀ i, i < 624 → st'.MT.getD i 0 < 2 ^ 32 :=
  ⟨Or.inr rfl, Or.inr rfl, Or.inr rfl, List.length_replicate _ _,
    C17_mt19937_state 64 64 64 (Or.inr rfl) (Or.inr rfl) (Or.inr rfl)
      { index := 0, MT := List.replicate 624 18446744073709551615 }
      (List.length_replicate _ _) 18446744073709551615
      [EngineOp.call, EngineOp.skip 700, EngineOp.call]⟩

end mersenne_twister_engine

namespace linear_congruential_engine

/-- The multiplication step in exact arithmetic computes `A * data mod M` under
Schrage's condition. -/
theorem mulStepExact_eq (p : LCGParams) (data : Nat) (hA : 1 ≤ p.multiplier)
    (hr : p.modulus % p.multiplier ≤ p.modulus / p.multiplier) (hx : data < p.modulus) :
    mulStepExact p data = some (p.multiplier * data % p.modulus) := by
  unfold mulStepExact
  have hM : p.modulus ≠ 0 := by omega
  split
  · rename_i h1
    simp [urem, hM, h1]
  · obtain ⟨-, -, hres⟩ := schrage p.multiplier p.modulus data hA hr hx
    have hA0 : p.multiplier ≠ 0 := by omega
    have hq : p.modulus / p.multiplier ≠ 0 := by
      intro h
      rw [h] at hr
      have := Nat.div_add_mod p.modulus p.multiplier
      rw [h] at this
      simp at this hr
      omega
    simp only [udiv, urem, hA0, hq, if_false, Option.bind_eq_bind, Option.some_bind]
    rw [← hres]
    split <;> rfl

/-- The two `minstd` presets have a zero increment, so both increment steps leave the
state as it is. -/
theorem next_eq_nextExact_of_mul (p : LCGParams) (data : Nat) (hi : p.increment = 0)
    (h : mulStep p data = mulStepExact p data) : next p data = nextExact p data := by
  unfold next nextExact
  rw [h]
  cases mulStepExact p data with
  | none => rfl
  | some d => simp [addStep, addStepExact, hi]

/-- C18: for `minstd_rand0` and `minstd_rand` with a 32-bit result type and every state
`data < M`, the values that `operator()` computes (`t1 = A * (data mod q)`,
`t2 = r * (data / q)`, `M + t1` and the final difference) are below `2^32` and no
subtraction goes below zero; the 32-bit products and sum equal the exact ones, so the call
in 32-bit wrapping arithmetic returns, without failing, the same value as in exact integer
arithmetic. -/
theorem C18_minstd_no_overflow (p : LCGParams)
    (hp : p = minstd_rand0 32 ∨ p = minstd_rand 32) (data : Nat) (hd : data < p.modulus) :
    p.multiplier * (data % (p.modulus / p.multiplier)) < 2 ^ 32 ∧
    p.modulus % p.multiplier * (data / (p.modulus / p.multiplier)) < 2 ^ 32 ∧
    p.modulus + p.multiplier * (data % (p.modulus / p.multiplier)) < 2 ^ 32 ∧
    (p.multiplier * (data % (p.modulus / p.multiplier))
        < p.modulus % p.multiplier * (data / (p.modulus / p.multiplier)) →
      p.modulus % p.multiplier * (data / (p.modulus / p.multiplier))
          ≤ p.modulus + p.multiplier * (data % (p.modulus / p.multiplier)) ∧
        p.modulus + p.multiplier * (data % (p.modulus / p.multiplier))
          - p.modulus % p.multiplier * (data / (p.modulus / p.multiplier)) < 2 ^ 32) ∧
    (¬ p.multiplier * (data % (p.modulus / p.multiplier))
        < p.modulus % p.multiplier * (data / (p.modulus / p.multiplier)) →
      p.modulus % p.multiplier * (data / (p.modulus / p.multiplier))
          ≤ p.multiplier * (data % (p.modulus / p.multiplier)) ∧
        p.multiplier * (data % (p.modulus / p.multiplier))
          - p.modulus % p.multiplier * (data / (p.modulus / p.multiplier)) < 2 ^ 32) ∧
    umul p.bits p.multiplier (data % (p.modulus / p.multiplier))
      = p.multiplier * (data % (p.modulus / p.multiplier)) ∧
    umul p.bits (p.modulus % p.multiplier) (data / (p.modulus / p.multiplier))
      = p.modulus % p.multiplier * (data / (p.modulus / p.multiplier)) ∧
    uadd p.bits p.modulus (p.multiplier * (data % (p.modulus / p.multiplier)))
      = p.modulus + p.multiplier * (data % (p.modulus / p.multiplier)) ∧
    next p data = nextExact p data ∧
    nextExact p data = some ((p.multiplier * data + p.increment) % p.modulus,
      (p.multiplier * data + p.increment) % p.modulus) := by
  have hpi : p.increment = 0 ∧ p.modulus = 2147483647 ∧ p.bits = 32 ∧ 1 ≤ p.multiplier ∧
      p.modulus % p.multiplier ≤ p.modulus / p.multiplier := by
    rcases hp with rfl | rfl
    · exact ⟨rfl, rfl, rfl, show 1 ≤ 16807 by decide,
        show 2147483647 % 16807 ≤ 2147483647 / 16807 by decide⟩
    · exact ⟨rfl, rfl, rfl, show 1 ≤ 48271 by decide,
        show 2147483647 % 48271 ≤ 2147483647 / 48271 by decide⟩
  obtain ⟨hi, hm, hbits, hA, hr⟩ := hpi
  obtain ⟨ht1, ht2, -⟩ := schrage p.multiplier p.modulus data hA hr hd
  have hfit : p.modulus < 2 ^ p.bits := by rw [hm, hbits]; decide
  have e1 := mulStep_eq p data hA hr hfit hd
  have e2 := mulStepExact_eq p data hA hr hd
  have e3 : nextExact p data = some ((p.multiplier * data + p.increment) % p.modulus,
      (p.multiplier * data + p.increment) % p.modulus) := by
    unfold nextExact
    rw [e2]
    simp [addStepExact, hi]
  have hpow : (2 : Nat) ^ 32 = 4294967296 := by norm_num
  have hpb : 2 ^ p.bits = 4294967296 := by rw [hbits]; norm_num
  have w1 : umul p.bits p.multiplier (data % (p.modulus / p.multiplier))
      = p.multiplier * (data % (p.modulus / p.multiplier)) := wrap_of_lt (by omega)
  have w2 : umul p.bits (p.modulus % p.multiplier) (data / (p.modulus / p.multiplier))
      = p.modulus % p.multiplier * (data / (p.modulus / p.multiplier)) :=
    wrap_of_lt (by omega)
  have w3 : uadd p.bits p.modulus (p.multiplier * (data % (p.modulus / p.multiplier)))
      = p.modulus + p.multiplier * (data % (p.modulus / p.multiplier)) :=
    wrap_of_lt (by omega)
  rw [hpow]
  generalize p.multiplier * (data % (p.modulus / p.multiplier)) = t1 at ht1 w1 w3 ⊢
  generalize p.modulus % p.multiplier * (data / (p.modulus / p.multiplier)) = t2 at ht2 w2 ⊢
  refine ⟨by omega, by omega, by omega, by omega, by omega, w1, w2, w3,
    next_eq_nextExact_of_mul p data hi (e1.trans e2.symm), e3⟩

theorem C18_minstd_no_overflow_witness :
    (minstd_rand 32 = minstd_rand0 32 ∨ minstd_rand 32 = minstd_rand 32) ∧
    (2147483646 < (minstd_rand 32).modulus) ∧
    next (minstd_rand 32) 2147483646 = nextExact (minstd_rand 32) 2147483646 ∧
    nextExact (minstd_rand 32) 2147483646 = some (2147435376, 2147435376) :=
  ⟨Or.inr rfl, by decide,
    (C18_minstd_no_overflow (minstd_rand 32) (Or.inr rfl) 2147483646
      (by decide)).2.2.2.2.2.2.2.2⟩

end linear_congruential_engine

/-! ## Construction from parameter tuples outside the preconditions -/

namespace mersenne_twister_engine

theorem construct_of_pos (p : MTParams) (raw : MTState) (value : Nat)
    (hlen : raw.MT.length = p.N) (hN : 0 < p.N) (hsz : p.N < 2 ^ p.szbits) :
    ∃ st, construct p raw value = some st ∧ st.index = p.N ∧ st.MT.length = p.N := by
  obtain ⟨mt, h, hl, -⟩ := mt_seed_eq p raw value hlen hN hsz
  exact ⟨_, h, rfl, hl⟩

theorem construct_of_zero (p : MTParams) (raw : MTState) (value : Nat)
    (hlen : raw.MT.length = p.N) (hN : p.N = 0) : construct p raw value = none := by
  unfold construct seed writeAt
  rw [if_neg (by omega)]
  rfl

end mersenne_twister_engine

theorem lcg_construct_of_zero (p : LCGParams) (value : Nat) (hM : p.modulus = 0) :
    linear_congruential_engine.construct p value = none := by
  unfold linear_congruential_engine.construct linear_congruential_engine.seed urem
  rw [if_pos hM]
  rfl

/-- C19, as the code has it: the constructors validate nothing and only run
`seed( value )`.  With LCG `modulus == 0` the seed takes a remainder by zero, and with MT
`N == 0` it writes outside the empty array: the embedded constructor fails.  With MT
`N >= 1` (`N` a `std::size_t` value) construction succeeds and leaves `index = N`
whatever `Mshift` is, `Mshift == 0` and `Mshift >= N` included. -/
theorem C19_construction (pl : LCGParams) (pm : MTParams) (raw : MTState) (value : Nat)
    (hlen : raw.MT.length = pm.N) :
    (pl.modulus = 0 → linear_congruential_engine.construct pl value = none) ∧
    (pm.N = 0 → mersenne_twister_engine.construct pm raw value = none) ∧
    (0 < pm.N → pm.N < 2 ^ pm.szbits →
      ∃ st, mersenne_twister_engine.construct pm raw value = some st ∧
        st.index = pm.N ∧ st.MT.length = pm.N) :=
  ⟨lcg_construct_of_zero pl value,
    mersenne_twister_engine.construct_of_zero pm raw value hlen,
    mersenne_twister_engine.construct_of_pos pm raw value hlen⟩

theorem C19_construction_witness :
    (({ index := 0, MT := [] } : MTState).MT.length
      = ({ mt19937 32 32 32 with N := 0 } : MTParams).N) ∧
    (({ bits := 32, multiplier := 16807, increment := 0, modulus := 0 } : LCGParams).modulus
      = 0) ∧
    linear_congruential_engine.construct
      { bits := 32, multiplier := 16807, increment := 0, modulus := 0 } 1 = none ∧
    (({ mt19937 32 32 32 with N := 0 } : MTParams).N = 0) ∧
    mersenne_twister_engine.construct { mt19937 32 32 32 with N := 0 }
      { index := 0, MT := [] } 1 = none ∧
    (({ index := 0, MT := [0, 0] } : MTState).MT.length
      = ({ mt19937 32 32 32 with N := 2, M := 0 } : MTParams).N) ∧
    (0 < ({ mt19937 32 32 32 with N := 2, M := 0 } : MTParams).N) ∧
    (({ mt19937 32 32 32 with N := 2, M := 0 } : MTParams).N
      < 2 ^ ({ mt19937 32 32 32 with N := 2, M := 0 } : MTParams).szbits) ∧
    ∃ st, mersenne_twister_engine.construct { mt19937 32 32 32 with N := 2, M := 0 }
        { index := 0, MT := [0, 0] } 1 = some st ∧
      st.index = ({ mt19937 32 32 32 with N := 2, M := 0 } : MTParams).N ∧
      st.MT.length = ({ mt19937 32 32 32 with N := 2, M := 0 } : MTParams).N :=
  ⟨rfl, rfl,
    (C19_construction { bits := 32, multiplier := 16807, increment := 0, modulus := 0 }
      { mt19937 32 32 32 with N := 0 } { index := 0, MT := [] } 1 rfl).1 rfl,
    rfl,
    (C19_construction { bits := 32, multiplier := 16807, increment := 0, modulus := 0 }
      { mt19937 32 32 32 with N := 0 } { index := 0, MT := [] } 1 rfl).2.1 rfl,
    rfl, by decide, by decide,
    (C19_construction { bits := 32, multiplier := 16807, increment := 0, modulus := 0 }
      { mt19937 32 32 32 with N := 2, M := 0 } { index := 0, MT := [0, 0] } 1 rfl).2.2
      (by decide) (by decide)⟩

/-- C19 as stated fails: with `Mshift == N` (here `N = Mshift = 2`, the other constants
those of `mt19937`) construction succeeds and the first call returns a value; with
`Mshift == 0` construction succeeds as well. -/
theorem C19_counterexample :
    (({ mt19937 32 32 32 with N := 2, M := 2 } : MTParams).M
      ≥ ({ mt19937 32 32 32 with N := 2, M := 2 } : MTParams).N) ∧
    mersenne_twister_engine.construct { mt19937 32 32 32 with N := 2, M := 2 }
      { index := 0, MT := [0, 0] } 5489 = some { index := 2, MT := [5489, 1301868182] } ∧
    mersenne_twister_engine.next { mt19937 32 32 32 with N := 2, M := 2 }
      { index := 2, MT := [5489, 1301868182] }
      = some (1174861879, { index := 1, MT := [650928698, 1593761675] }) ∧
    (({ mt19937 32 32 32 with N := 2, M := 0 } : MTParams).M = 0) ∧
    mersenne_twister_engine.construct { mt19937 32 32 32 with N := 2, M := 0 }
      { index := 0, MT := [0, 0] } 5489 = some { index := 2, MT := [5489, 1301868182] } := by
  decide

/-! ## Dominance between two ranges -/

theorem exists_index_cons {α : Type} (P : α → α → Prop) (x y : α) (xs ys : List α) :
    (∃ (i : Nat) (u v : α), (x :: xs)[i]? = some u ∧ (y :: ys)[i]? = some v ∧ P u v) ↔
      P x y ∨ ∃ (i : Nat) (u v : α), xs[i]? = some u ∧ ys[i]? = some v ∧ P u v := by
  constructor
  · rintro ⟨i, u, v, hu, hv, hP⟩
    cases i with
    | zero =>
      simp only [List.getElem?_cons_zero, Option.some.injEq] at hu hv
      subst hu hv
      exact Or.inl hP
    | succ i =>
      simp only [List.getElem?_cons_succ] at hu hv
      exact Or.inr ⟨i, u, v, hu, hv, hP⟩
  · rintro (hP | ⟨i, u, v, hu, hv, hP⟩)
    · exact ⟨0, x, y, by simp, by simp, hP⟩
    · exact ⟨i + 1, u, v, by simpa using hu, by simpa using hv, hP⟩

theorem forall_index_cons {α : Type} (P : α → α → Prop) (x y : α) (xs ys : List α) :
    (∀ (i : Nat) (u v : α), (x :: xs)[i]? = some u → (y :: ys)[i]? = some v → P u v) ↔
      P x y ∧ ∀ (i : Nat) (u v : α), xs[i]? = some u → ys[i]? = some v → P u v := by
  constructor
  · intro h
    refine ⟨h 0 x y (by simp) (by simp), ?_⟩
    intro i u v hu hv
    exact h (i + 1) u v (by simpa using hu) (by simpa using hv)
  · rintro ⟨hP, h⟩ i u v hu hv
    cases i with
    | zero =>
      simp only [List.getElem?_cons_zero, Option.some.injEq] at hu hv
      subst hu hv
      exact hP
    | succ i =>
      simp only [List.getElem?_cons_succ] at hu hv
      exact h i u v hu hv

theorem weakly_dominates_iff {α : Type} [LT α] [DecidableRel (fun x y : α => x < y)]
    (a b : List α) :
    weakly_dominates a b = true ↔
      ∀ (i : Nat) (u v : α), a[i]? = some u → b[i]? = some v → ¬ v < u := by
  induction a generalizing b with
  | nil => simp [weakly_dominates]
  | cons x xs ih =>
    cases b with
    | nil => simp [weakly_dominates]
    | cons y ys =>
      rw [forall_index_cons (fun u v => ¬ v < u), ← ih ys, weakly_dominates]
      by_cases h : y < x <;> simp [h]

theorem dominatesLtLoop_iff {α : Type} [LT α] [DecidableRel (fun x y : α => x < y)]
    (a b : List α) (r : Bool) :
    dominatesLtLoop r a b = true ↔
      weakly_dominates a b = true ∧
        (r = true ∨ ∃ (i : Nat) (u v : α), a[i]? = some u ∧ b[i]? = some v ∧ u < v) := by
  induction a generalizing b r with
  | nil => simp [dominatesLtLoop, weakly_dominates]
  | cons x xs ih =>
    cases b with
    | nil => simp [dominatesLtLoop, weakly_dominates]
    | cons y ys =>
      rw [exists_index_cons (fun u v => u < v), dominatesLtLoop, weakly_dominates]
      by_cases h : y < x
      · simp [h]
      · simp only [h, if_false, ih ys, Bool.or_eq_true, decide_eq_true_eq]
        constructor
        · rintro ⟨hw, (hr | hxy) | he⟩
          · exact ⟨hw, Or.inl hr⟩
          · exact ⟨hw, Or.inr (Or.inl hxy)⟩
          · exact ⟨hw, Or.inr (Or.inr he)⟩
        · rintro ⟨hw, hr | hxy | he⟩
          · exact ⟨hw, Or.inl (Or.inl hr)⟩
          · exact ⟨hw, Or.inl (Or.inr hxy)⟩
          · exact ⟨hw, Or.inr he⟩

theorem dominatesLtLoop_take {α : Type} [LT α] [DecidableRel (fun x y : α => x < y)]
    (a b : List α) (r : Bool) :
    dominatesLtLoop r a b = dominatesLtLoop r (a.take (Nat.min a.length b.length))
      (b.take (Nat.min a.length b.length)) := by
  induction a generalizing b r with
  | nil => simp [dominatesLtLoop]
  | cons x xs ih =>
    cases b with
    | nil => simp [dominatesLtLoop]
    | cons y ys =>
      have e : Nat.min (x :: xs).length (y :: ys).length
          = Nat.min xs.length ys.length + 1 := by
        simp only [List.length_cons]
        exact Nat.succ_min_succ _ _
      rw [e, List.take_succ_cons, List.take_succ_cons, dominatesLtLoop, dominatesLtLoop]
      by_cases h : y < x
      · simp [h]
      · simp only [h, if_false]
        exact ih ys _

/-- C20: for all sequences `a` and `b`, `weakly_dominates(a, b)` returns true exactly when
no position `i` of the common prefix has `b[i] < a[i]`, and `dominates(a, b)` returns true
exactly when `weakly_dominates(a, b)` returns true and at least one position `i` of the
common prefix has `a[i] < b[i]`; positions beyond the shorter range are ignored.  The
comparison `<` is any relation on the elements. -/
theorem C20_dominates {α : Type} [LT α] [DecidableRel (fun x y : α => x < y)]
    (a b : List α) :
    (weakly_dominates a b = true ↔
      ∀ (i : Nat) (u v : α), a[i]? = some u → b[i]? = some v → ¬ v < u) ∧
    (dominates a b = true ↔
      weakly_dominates a b = true ∧
        ∃ (i : Nat) (u v : α), a[i]? = some u ∧ b[i]? = some v ∧ u < v) ∧
    dominates a b = dominates (a.take (Nat.min a.length b.length))
      (b.take (Nat.min a.length b.length)) := by
  refine ⟨weakly_dominates_iff a b, ?_, dominatesLtLoop_take a b false⟩
  unfold dominates
  rw [dominatesLtLoop_iff]
  simp

/-! ## Values computed by the call operator of the linear congruential engine -/

theorem wrap_le (w x : Nat) : wrap w x ≤ x := Nat.mod_le _ _

namespace linear_congruential_engine

theorem addValues_below (p : LCGParams) (d1 : Nat) (hC : p.increment < p.modulus)
    (hfit : p.modulus < 2 ^ p.bits) (hd : d1 < p.modulus) :
    ∀ v ∈ addValues p d1, v < 2 * p.modulus := by
  have ed : usub p.bits p.modulus d1 = p.modulus - d1 := usub_of_le (by omega) hfit
  intro v hv
  unfold addValues at hv
  split at hv
  · simp only [ed] at hv
    split at hv
    · rename_i h
      have hle := wrap_le p.bits (d1 + p.increment)
      simp only [List.mem_cons, List.mem_singleton, List.not_mem_nil, or_false] at hv
      rcases hv with rfl | rfl
      · omega
      · unfold uadd; omega
    · rename_i h
      have e : usub p.bits p.increment (p.modulus - d1) = p.increment - (p.modulus - d1) :=
        usub_of_le (by omega) (by omega)
      simp only [e, List.mem_cons, List.mem_singleton, List.not_mem_nil, or_false] at hv
      rcases hv with rfl | rfl <;> omega
  · simp at hv

/-- Under Schrage's condition the call computes its values without failing and each of
them is below `2 * M`. -/
theorem nextValues_below (p : LCGParams) (data : Nat) (hA : 1 ≤ p.multiplier)
    (hr : p.modulus % p.multiplier ≤ p.modulus / p.multiplier)
    (hC : p.increment < p.modulus) (hfit : p.modulus < 2 ^ p.bits) (hd : data < p.modulus) :
    ∃ vs, nextValues p data = some vs ∧ ∀ v ∈ vs, v < 2 * p.modulus := by
  have hM : p.modulus ≠ 0 := by omega
  have hmod : p.multiplier * data % p.modulus < p.modulus := Nat.mod_lt _ (by omega)
  unfold nextValues
  split
  · rename_i h1
    have hlt : data % p.modulus < p.modulus := Nat.mod_lt _ (by omega)
    simp only [urem, hM, if_false, Option.bind_eq_bind, Option.some_bind]
    refine ⟨_, rfl, ?_⟩
    intro v hv
    simp only [List.mem_append, List.mem_singleton] at hv
    rcases hv with rfl | hv
    · omega
    · exact addValues_below p _ hC hfit hlt v hv
  · obtain ⟨ht1, ht2, hres⟩ := schrage p.multiplier p.modulus data hA hr hd
    have hA0 : p.multiplier ≠ 0 := by omega
    have hq : p.modulus / p.multiplier ≠ 0 := by
      intro h
      rw [h] at hr
      have := Nat.div_add_mod p.modulus p.multiplier
      rw [h] at this
      simp at this hr
      omega
    have e1 : umul p.bits p.multiplier (data % (p.modulus / p.multiplier))
        = p.multiplier * (data % (p.modulus / p.multiplier)) := wrap_of_lt (by omega)
    have e2 : umul p.bits (p.modulus % p.multiplier) (data / (p.modulus / p.multiplier))
        = p.modulus % p.multiplier * (data / (p.modulus / p.multiplier)) :=
      wrap_of_lt (by omega)
    have hqle : p.modulus / p.multiplier ≤ p.modulus := Nat.div_le_self _ _
    have hrle : p.modulus % p.multiplier ≤ p.modulus := Nat.mod_le _ _
    have hdq : data % (p.modulus / p.multiplier) ≤ data := Nat.mod_le _ _
    have hdd : data / (p.modulus / p.multiplier) ≤ data := Nat.div_le_self _ _
    simp only [udiv, urem, hA0, hq, if_false, Option.bind_eq_bind, Option.some_bind, e1, e2]
    generalize p.multiplier * (data % (p.modulus / p.multiplier)) = t1 at ht1 hres ⊢
    generalize p.modulus % p.multiplier * (data / (p.modulus / p.multiplier)) = t2
      at ht2 hres ⊢
    split
    · rename_i hlt
      rw [if_pos hlt] at hres
      have es : usub p.bits (uadd p.bits p.modulus t1) t2 = p.modulus + t1 - t2 :=
        usub_uadd_of_le (by omega) (by omega) (by omega)
      have hs := wrap_le p.bits (p.modulus + t1)
      refine ⟨_, rfl, ?_⟩
      intro v hv
      simp only [es, List.mem_append, List.mem_cons, List.not_mem_nil, or_false] at hv
      rcases hv with (rfl | rfl | rfl | rfl | rfl | rfl | rfl | rfl) | hv
      · omega
      · omega
      · omega
      · omega
      · omega
      · omega
      · unfold uadd; omega
      · omega
      · exact addValues_below p _ hC hfit (by omega) v hv
    · rename_i hge
      rw [if_neg hge] at hres
      have es : usub p.bits t1 t2 = t1 - t2 := usub_of_le (by omega) (by omega)
      refine ⟨_, rfl, ?_⟩
      intro v hv
      simp only [es, List.mem_append, List.mem_cons, List.not_mem_nil, or_false] at hv
      rcases hv with (rfl | rfl | rfl | rfl | rfl | rfl | rfl) | hv
      · omega
      · omega
      · omega
      · omega
      · omega
      · omega
      · omega
      · exact addValues_below p _ hC hfit (by omega) v hv


theorem addValues_getLast (p : LCGParams) (l : List Nat) (d1 : Nat) :
    (l ++ [d1] ++ addValues p d1).getLast? = some (addStep p d1) := by
  unfold addValues addStep
  split
  · dsimp only
    split <;> simp
  · simp

/-- The last value that the call computes is the value it returns. -/
theorem nextValues_getLast (p : LCGParams) (data : Nat) :
    (nextValues p data).bind (fun vs => vs.getLast?) = (next p data).map Prod.fst := by
  unfold nextValues next mulStep
  split
  · cases h : urem data p.modulus with
    | none => simp
    | some d1 =>
      simp only [Option.bind_eq_bind, Option.some_bind, Option.map_some']
      exact addValues_getLast p [] d1
  · cases hq : udiv p.modulus p.multiplier with
    | none => simp
    | some q =>
      simp only [Option.bind_eq_bind, Option.some_bind]
      cases hr : urem p.modulus p.multiplier with
      | none => simp
      | some r =>
        simp only [Option.some_bind]
        cases hdq : urem data q with
        | none => simp
        | some dq =>
          simp only [Option.some_bind]
          cases hdd : udiv data q with
          | none => simp
          | some dd =>
            simp only [Option.some_bind]
            split
            · simp only [Option.some_bind, Option.map_some']
              exact addValues_getLast p
                [q, r, dq, umul p.bits p.multiplier dq, dd, umul p.bits r dd,
                  uadd p.bits p.modulus (umul p.bits p.multiplier dq)] _
            · simp only [Option.some_bind, Option.map_some']
              exact addValues_getLast p
                [q, r, dq, umul p.bits p.multiplier dq, dd, umul p.bits r dd] _

/-- C21: for every parameter set with `M > 0`, `A >= 1`, `C < M` and
`M mod A <= M / A` (`M` a value of the result type) and every state `data < M`, the call
operator does not fail, sets the state to `(A * data + C) mod M` computed over the natural
numbers and returns it, and every value it computes on the way (`nextValues`, the last of
which is the returned value) is below `2 * M`. -/
theorem C21_next_general (p : LCGParams) (data : Nat) (hM : 0 < p.modulus)
    (hA : 1 ≤ p.multiplier) (hr : p.modulus % p.multiplier ≤ p.modulus / p.multiplier)
    (hC : p.increment < p.modulus) (hfit : p.modulus < 2 ^ p.bits) (hd : data < p.modulus) :
    next p data = some ((p.multiplier * data + p.increment) % p.modulus,
      (p.multiplier * data + p.increment) % p.modulus) ∧
    (p.multiplier * data + p.increment) % p.modulus < p.modulus ∧
    ∃ vs, nextValues p data = some vs ∧
      vs.getLast? = some ((p.multiplier * data + p.increment) % p.modulus) ∧
      ∀ v ∈ vs, v < 2 * p.modulus := by
  have hnext := next_eq p data hA hr hC hfit hd
  obtain ⟨vs, hvs, hbelow⟩ := nextValues_below p data hA hr hC hfit hd
  have hlast := nextValues_getLast p data
  rw [hvs, hnext] at hlast
  exact ⟨hnext, Nat.mod_lt _ hM, vs, hvs, hlast, hbelow⟩

theorem C21_next_general_witness :
    (0 < ({ bits := 8, multiplier := 5, increment := 3, modulus := 200 } : LCGParams).modulus) ∧
    (1 ≤ ({ bits := 8, multiplier := 5, increment := 3, modulus := 200 }
      : LCGParams).multiplier) ∧
    ((200 : Nat) % 5 ≤ 200 / 5) ∧ ((3 : Nat) < 200) ∧ ((200 : Nat) < 2 ^ 8) ∧
    ((199 : Nat) < 200) ∧
    next { bits := 8, multiplier := 5, increment := 3, modulus := 200 } 199
      = some (198, 198) ∧
    ∃ vs, nextValues { bits := 8, multiplier := 5, increment := 3, modulus := 200 } 199
        = some vs ∧
      vs.getLast? = some 198 ∧ ∀ v ∈ vs, v < 2 * 200 :=
  ⟨by decide, by decide, by decide, by decide, by decide, by decide,
    (C21_next_general { bits := 8, multiplier := 5, increment := 3, modulus := 200 } 199
      (by decide) (by decide) (by decide) (by decide) (by decide) (by decide)).1,
    (C21_next_general { bits := 8, multiplier := 5, increment := 3, modulus := 200 } 199
      (by decide) (by decide) (by decide) (by decide) (by decide) (by decide)).2.2⟩

end linear_congruential_engine

/-! ## Array accesses of the Mersenne Twister call operator -/

theorem readAt_some_lt {mt : List Nat} {i v : Nat} (h : readAt mt i = some v) :
    i < mt.length := by
  unfold readAt at h
  by_cases hi : i < mt.length
  · exact hi
  · rw [List.getElem?_eq_none (by omega)] at h
    cases h

theorem writeAt_some_lt {mt mt' : List Nat} {i v : Nat} (h : writeAt mt i v = some mt') :
    i < mt.length := by
  unfold writeAt at h
  by_cases hi : i < mt.length
  · exact hi
  · rw [if_neg hi] at h
    cases h

namespace mersenne_twister_engine

/-- C22: for every parameter set with `0 < Mshift < N` (`N` a `std::size_t` value) and
every state of `N` words, whatever `index` is, the call operator does not fail: none of its
array accesses, each of which fails outside the array, is out of range.  The positions it
uses are all below `N`: `i`, `i + 1` and `i + Mshift` in the first loop, `i`, `i + 1` and
`i + (Mshift - N)` (wrapping) in the second loop, `N - 1`, `0`, `Mshift - 1`, and the
cursor at which the draw is read. -/
theorem C22_accesses_in_range (p : MTParams) (st : MTState) (h0 : 0 < p.M) (hM : p.M < p.N)
    (hsz : p.N < 2 ^ p.szbits) (hlen : st.MT.length = p.N) :
    (∃ r, next p st = some r) ∧
    (∃ st1, regenerate p st = some st1 ∧ st1.MT.length = p.N ∧ st1.index < p.N) ∧
    (∀ (mt : List Nat) (i v : Nat), readAt mt i = some v → i < mt.length) ∧
    (∀ (mt mt' : List Nat) (i v : Nat), writeAt mt i v = some mt' → i < mt.length) ∧
    (∀ i, i < usub p.szbits p.N p.M →
      i < p.N ∧ uadd p.szbits i 1 < p.N ∧ uadd p.szbits i p.M < p.N) ∧
    (∀ i, usub p.szbits p.N p.M ≤ i → i < usub p.szbits p.N 1 →
      i < p.N ∧ uadd p.szbits i 1 < p.N ∧
        uadd p.szbits i (usub p.szbits p.M p.N) < p.N) ∧
    usub p.szbits p.N 1 < p.N ∧ 0 < p.N ∧ usub p.szbits p.M 1 < p.N := by
  have enm : usub p.szbits p.N p.M = p.N - p.M := usub_of_le (by omega) hsz
  have en1 : usub p.szbits p.N 1 = p.N - 1 := usub_of_le (by omega) hsz
  have em1 : usub p.szbits p.M 1 = p.M - 1 := usub_of_le (by omega) (by omega)
  rw [enm, en1, em1]
  refine ⟨?_, ?_, fun _ _ _ h => readAt_some_lt h, fun _ _ _ _ h => writeAt_some_lt h,
    ?_, ?_, by omega, by omega, by omega⟩
  · by_cases hidx : st.index < p.N
    · exact ⟨_, next_of_lt p st hlen hsz hidx⟩
    · exact ⟨_, next_of_ge p st h0 hM hsz hlen (by omega)⟩
  · by_cases hidx : st.index < p.N
    · exact ⟨st, regenerate_of_lt p st hidx, hlen, hidx⟩
    · refine ⟨_, regenerate_eq p st h0 hM hsz hlen (by omega), ?_, ?_⟩
      · show (twistPass p st.MT).length = p.N
        rw [twistPass_length, hlen]
      · show 0 < p.N
        omega
  · intro i hi
    rw [uadd_of_lt (by omega), uadd_of_lt (by omega)]
    omega
  · intro i hi1 hi2
    rw [uadd_of_lt (by omega), uadd_usub_wrap hM hsz (by omega) (by omega)]
    omega

theorem C22_accesses_in_range_witness :
    (0 < (mt19937 32 32 32).M) ∧ ((mt19937 32 32 32).M < (mt19937 32 32 32).N) ∧
    ((mt19937 32 32 32).N < 2 ^ (mt19937 32 32 32).szbits) ∧
    (({ index := 4294967295, MT := List.replicate 624 4294967295 } : MTState).MT.length
      = (mt19937 32 32 32).N) ∧
    (∃ r, next (mt19937 32 32 32)
      { index := 4294967295, MT := List.replicate 624 4294967295 } = some r) ∧
    (∀ i, usub 32 624 397 ≤ i → i < usub 32 624 1 →
      i < 624 ∧ uadd 32 i 1 < 624 ∧ uadd 32 i (usub 32 397 624) < 624) :=
  ⟨by decide, by decide, by decide, List.length_replicate _ _,
    (C22_accesses_in_range (mt19937 32 32 32)
      { index := 4294967295, MT := List.replicate 624 4294967295 }
      (by decide) (by decide) (by decide) (List.length_replicate _ _)).1,
    (C22_accesses_in_range (mt19937 32 32 32)
      { index := 4294967295, MT := List.replicate 624 4294967295 }
      (by decide) (by decide) (by decide) (List.length_replicate _ _)).2.2.2.2.2.1⟩

end mersenne_twister_engine

/-! ## Divisions of the linear congruential call operator -/

namespace linear_congruential_engine

/-- C23, as the code has it: for every parameter set with `M > 0` and every state, the
call operator performs no division or remainder by zero exactly when `1 <= A <= M`
(with `A == 0` it evaluates `M / 0`, with `A > M` it evaluates `_data % q` for
`q = M / A = 0`). -/
theorem C23_no_division_by_zero (p : LCGParams) (data : Nat) (hM : 0 < p.modulus) :
    (∃ r, next p data = some r) ↔ (1 ≤ p.multiplier ∧ p.multiplier ≤ p.modulus) := by
  have hM0 : p.modulus ≠ 0 := by omega
  unfold next mulStep
  constructor
  · rintro ⟨r, hr⟩
    by_cases h1 : p.multiplier = 1
    · omega
    · rw [if_neg h1] at hr
      by_cases hA : p.multiplier = 0
      · simp [udiv, hA] at hr
      · by_cases hq : p.modulus / p.multiplier = 0
        · simp [udiv, urem, hA, hq] at hr
        · have hle : p.multiplier ≤ p.modulus := by
            by_contra hlt
            exact hq (Nat.div_eq_of_lt (by omega))
          omega
  · rintro ⟨hA1, hAM⟩
    by_cases h1 : p.multiplier = 1
    · rw [if_pos h1]
      simp [urem, hM0]
    · rw [if_neg h1]
      have hA : p.multiplier ≠ 0 := by omega
      have hq : p.modulus / p.multiplier ≠ 0 := by
        have := Nat.div_pos hAM (by omega)
        omega
      simp only [udiv, urem, hA, hq, if_false, Option.bind_eq_bind, Option.some_bind]
      split <;> exact ⟨_, rfl⟩

theorem C23_no_division_by_zero_witness :
    (0 < (minstd_rand0 32).modulus) ∧
    ((∃ r, next (minstd_rand0 32) 0 = some r) ↔
      (1 ≤ (minstd_rand0 32).multiplier ∧
        (minstd_rand0 32).multiplier ≤ (minstd_rand0 32).modulus)) :=
  ⟨by decide, C23_no_division_by_zero (minstd_rand0 32) 0 (by decide)⟩

/-- C23 as stated fails: with `M = 7 > 0`, the call divides by zero for `A = 0`
(`M / A`) and for `A = 9 > M` (`_data % q` with `q = 0`). -/
theorem C23_counterexample :
    (0 < ({ bits := 32, multiplier := 0, increment := 0, modulus := 7 } : LCGParams).modulus) ∧
    udiv ({ bits := 32, multiplier := 0, increment := 0, modulus := 7 } : LCGParams).modulus
      ({ bits := 32, multiplier := 0, increment := 0, modulus := 7 } : LCGParams).multiplier
      = none ∧
    next { bits := 32, multiplier := 0, increment := 0, modulus := 7 } 3 = none ∧
    (0 < ({ bits := 32, multiplier := 9, increment := 0, modulus := 7 } : LCGParams).modulus) ∧
    udiv 7 9 = some 0 ∧ urem 3 0 = none ∧
    next { bits := 32, multiplier := 9, increment := 0, modulus := 7 } 3 = none := by
  decide

end linear_congruential_engine

/-! ## The `minstd` state transition as a permutation -/

namespace linear_congruential_engine

/-- Multiplying by `B` undoes multiplying by `A` modulo `M` when `A * B mod M = 1`. -/
theorem mul_mod_cancel (A B M x : Nat) (h : A * B % M = 1) (hx : x < M) :
    B * (A * x % M) % M = x := by
  have e : B * (A * x) = (A * B) * x := by ring
  calc B * (A * x % M) % M = (B * (A * x)) % M := by
        rw [Nat.mul_mod, Nat.mod_mod, ← Nat.mul_mod]
    _ = x := by
        rw [e, Nat.mul_mod, h, Nat.one_mul, Nat.mod_mod, Nat.mod_eq_of_lt hx]

theorem mul_mod_injective (A B M x y : Nat) (h : A * B % M = 1) (hx : x < M) (hy : y < M)
    (hxy : A * x % M = A * y % M) : x = y := by
  rw [← mul_mod_cancel A B M x h hx, ← mul_mod_cancel A B M y h hy, hxy]

/-- The multiplier of each `minstd` preset with its inverse modulo `M`. -/
theorem minstd_inverse (bits : Nat) (p : LCGParams)
    (hp : p = minstd_rand0 bits ∨ p = minstd_rand bits) :
    ∃ B, p.multiplier * B % 2147483647 = 1 ∧ B * p.multiplier % 2147483647 = 1 := by
  rcases hp with rfl | rfl
  · exact ⟨1407677000, show 16807 * 1407677000 % 2147483647 = 1 by norm_num,
      show 1407677000 * 16807 % 2147483647 = 1 by norm_num⟩
  · exact ⟨1899818559, show 48271 * 1899818559 % 2147483647 = 1 by norm_num,
      show 1899818559 * 48271 % 2147483647 = 1 by norm_num⟩

theorem next_minstd (bits : Nat) (hb : 32 ≤ bits) (p : LCGParams)
    (hp : p = minstd_rand0 bits ∨ p = minstd_rand bits) (d : Nat) (hd : d < 2147483647) :
    next p d = some (p.multiplier * d % 2147483647, p.multiplier * d % 2147483647) := by
  rcases hp with rfl | rfl
  · exact next_minstd_rand0 bits hb d hd
  · exact next_minstd_rand bits hb d hd

/-- C24: for `minstd_rand0` and `minstd_rand`, the state transition of the call operator
maps the states `1, ..., M-1` into themselves, is injective on them and reaches each of
them, so it is a permutation of `1, ..., M-1`; the state 0 is never reached from a
seeded engine, whatever sequence of `operator()` and `discard` calls follows. -/
theorem C24_minstd_permutation (bits : Nat) (hb : 32 ≤ bits) (p : LCGParams)
    (hp : p = minstd_rand0 bits ∨ p = minstd_rand bits) :
    p.modulus = 2147483647 ∧
    (∀ d, 1 ≤ d → d < p.modulus →
      ∃ d', next p d = some (d', d') ∧ 1 ≤ d' ∧ d' < p.modulus) ∧
    (∀ d1 d2, 1 ≤ d1 → d1 < p.modulus → 1 ≤ d2 → d2 < p.modulus →
      next p d1 = next p d2 → d1 = d2) ∧
    (∀ e, 1 ≤ e → e < p.modulus →
      ∃ d, 1 ≤ d ∧ d < p.modulus ∧ next p d = some (e, e)) ∧
    (∀ (value : Nat) (ops : List EngineOp),
      ∃ d, (seed p value).bind (runOps (next p) (discard p) ops) = some d ∧ d ≠ 0) := by
  have hpi : p.increment = 0 ∧ p.modulus = 2147483647 := by
    rcases hp with rfl | rfl <;> exact ⟨rfl, rfl⟩
  obtain ⟨B, hAB, hBA⟩ := minstd_inverse bits p hp
  have hnext := next_minstd bits hb p hp
  rw [hpi.2]
  refine ⟨rfl, ?_, ?_, ?_, ?_⟩
  · intro d h1 h2
    have h := mul_mod_state p.multiplier B d hAB (by unfold minstdState; omega)
    unfold minstdState at h
    exact ⟨_, hnext d h2, h.1, by omega⟩
  · intro d1 d2 _ h1 _ h2 heq
    rw [hnext d1 h1, hnext d2 h2] at heq
    simp only [Option.some.injEq, Prod.mk.injEq, and_self] at heq
    exact mul_mod_injective p.multiplier B 2147483647 d1 d2 hAB h1 h2 heq
  · intro e h1 h2
    have h := mul_mod_state B p.multiplier e hBA (by unfold minstdState; omega)
    unfold minstdState at h
    have hlt : B * e % 2147483647 < 2147483647 := by omega
    refine ⟨B * e % 2147483647, h.1, hlt, ?_⟩
    rw [hnext _ hlt, mul_mod_cancel B p.multiplier 2147483647 e hBA h2]
  · intro value ops
    obtain ⟨d0, hseed, hd0⟩ := seed_minstd p hpi.1 hpi.2 value
    obtain ⟨d, hrun, hd⟩ := runOps_inv (next p) (discard p) (fun _ => rfl) (fun _ _ => rfl)
      minstdState
      (fun s hs => by
        obtain ⟨v, s', hn, -, hs'⟩ := next_minstd_inv bits hb p hp s hs
        exact ⟨v, s', hn, hs'⟩)
      ops d0 hd0
    refine ⟨d, by rw [hseed, Option.some_bind]; exact hrun, ?_⟩
    unfold minstdState at hd
    omega

theorem C24_minstd_permutation_witness :
    (32 ≤ 32) ∧ (minstd_rand 32 = minstd_rand0 32 ∨ minstd_rand 32 = minstd_rand 32) ∧
    (∀ d1 d2, 1 ≤ d1 → d1 < (minstd_rand 32).modulus → 1 ≤ d2 →
      d2 < (minstd_rand 32).modulus →
      next (minstd_rand 32) d1 = next (minstd_rand 32) d2 → d1 = d2) ∧
    (∀ (value : Nat) (ops : List EngineOp),
      ∃ d, (seed (minstd_rand 32) value).bind
        (runOps (next (minstd_rand 32)) (discard (minstd_rand 32)) ops) = some d ∧ d ≠ 0) :=
  ⟨by decide, Or.inr rfl,
    (C24_minstd_permutation 32 (by decide) (minstd_rand 32) (Or.inr rfl)).2.2.1,
    (C24_minstd_permutation 32 (by decide) (minstd_rand 32) (Or.inr rfl)).2.2.2.2⟩

end linear_congruential_engine

/-! ## Asymmetry of dominance -/

theorem weakly_dominates_by_iff {α : Type} (p : α → α → Bool) (a b : List α) :
    weakly_dominates_by p a b = true ↔
      ∀ (i : Nat) (u v : α), a[i]? = some u → b[i]? = some v → ¬ p v u = true := by
  induction a generalizing b with
  | nil => simp [weakly_dominates_by]
  | cons x xs ih =>
    cases b with
    | nil => simp [weakly_dominates_by]
    | cons y ys =>
      rw [forall_index_cons (fun u v => ¬ p v u = true), ← ih ys, weakly_dominates_by]
      by_cases h : p y x = true <;> simp [h]

theorem dominatesLoop_iff {α : Type} (p : α → α → Bool) (a b : List α) (r : Bool) :
    dominatesLoop p r a b = true ↔
      weakly_dominates_by p a b = true ∧
        (r = true ∨ ∃ (i : Nat) (u v : α), a[i]? = some u ∧ b[i]? = some v ∧ p u v = true) := by
  induction a generalizing b r with
  | nil => simp [dominatesLoop, weakly_dominates_by]
  | cons x xs ih =>
    cases b with
    | nil => simp [dominatesLoop, weakly_dominates_by]
    | cons y ys =>
      rw [exists_index_cons (fun u v => p u v = true), dominatesLoop, weakly_dominates_by]
      cases h : p y x with
      | true => simp
      | false =>
        simp only [Bool.false_eq_true, if_false, ih ys, Bool.or_eq_true]
        constructor
        · rintro ⟨hw, (hr | hxy) | he⟩
          · exact ⟨hw, Or.inl hr⟩
          · exact ⟨hw, Or.inr (Or.inl hxy)⟩
          · exact ⟨hw, Or.inr (Or.inr he)⟩
        · rintro ⟨hw, hr | hxy | he⟩
          · exact ⟨hw, Or.inl (Or.inl hr)⟩
          · exact ⟨hw, Or.inl (Or.inr hxy)⟩
          · exact ⟨hw, Or.inr he⟩

/-- C25: for all sequences `a` and `b`, `dominates(a, b)` and `dominates(b, a)` are never
both true, for the overload that takes a comparison predicate, whatever the predicate is,
and for the overload that compares with `<`, whatever relation `<` is. -/
theorem C25_dominates_asymmetric {α : Type} [LT α] [DecidableRel (fun x y : α => x < y)]
    (p : α → α → Bool) (a b : List α) :
    ¬ (dominates_by p a b = true ∧ dominates_by p b a = true) ∧
    ¬ (dominates a b = true ∧ dominates b a = true) := by
  constructor
  · rintro ⟨hab, hba⟩
    unfold dominates_by at hab hba
    rw [dominatesLoop_iff] at hab hba
    obtain ⟨-, hr | ⟨i, u, v, hu, hv, hp⟩⟩ := hab
    · cases hr
    · exact (weakly_dominates_by_iff p b a).mp hba.1 i v u hv hu hp
  · rintro ⟨hab, hba⟩
    unfold dominates at hab hba
    rw [dominatesLtLoop_iff] at hab hba
    obtain ⟨-, hr | ⟨i, u, v, hu, hv, hp⟩⟩ := hab
    · cases hr
    · exact (weakly_dominates_iff b a).mp hba.1 i v u hv hu hp

/-! ## The public constant `initialization_multiplier` -/

namespace mersenne_twister_engine

/-- C26, the code at `mt19937`: the public constant `initialization_multiplier` is the
tempering constant `C = 0xefc60000`, while the template parameter `F`, the multiplier in
the loop of `seed`, is 1812433253; the two differ. -/
theorem C26_initialization_multiplier_is_C (b u s : Nat) :
    initialization_multiplier (mt19937 b u s) = 4022730752 ∧
    initialization_multiplier (mt19937 b u s) = tempering_c (mt19937 b u s) ∧
    (mt19937 b u s).F = 1812433253 ∧
    initialization_multiplier (mt19937 b u s) ≠ (mt19937 b u s).F ∧
    (∀ prev i, seedWord (mt19937 b u s) prev i
      = wrap b (uadd (Nat.max b s)
          (umul b (mt19937 b u s).F (prev ^^^ (prev >>> usub s 32 2))) i
        &&& MASK (mt19937 b u s))) := by
  refine ⟨rfl, rfl, rfl, ?_, fun _ _ => rfl⟩
  show (4022730752 : Nat) ≠ 1812433253
  decide

end mersenne_twister_engine
